import Mathlib

/-!
Verification of the max_tree utility-maximizer library.

The Rust source (src/lib.rs) is shallowly embedded as follows:

Utility values in the source are f64.  The only NaN that can arise in the
library is the uninitialized sentinel produced by Node::root (domain callbacks
are modelled as returning real utilities), so f64 values that can be NaN are
modelled as Option Rat with none playing the role of NaN, and the comparison
operators are modelled so that every comparison involving none is false,
exactly as IEEE comparisons involving NaN are false.  Finite f64 arithmetic is
modelled as exact rational arithmetic.

Mutation is modelled by explicit state passing: a Rust method receiving
(&mut Node, &mut C) and mutating the telemetry counter becomes a Lean function
returning the new node, the new context and the new counter.  The execute
callback has Rust type fn(&T, &A, &mut C) -> Result<T, ()>; it is modelled as
a function returning (Option T) x C, so that a failing execute may still have
mutated the context, just as the &mut reference allows.
-/

variable {T A C : Type}

/-- Models the f64 comparison a > b where either side may be the NaN
sentinel (none); every comparison involving NaN is false. -/
def fgt (a b : Option ℚ) : Bool :=
  match a, b with
  | some x, some y => y < x
  | _, _ => false

/-- Models the f64 comparison a >= b where either side may be the NaN
sentinel (none); every comparison involving NaN is false. -/
def fge (a b : Option ℚ) : Bool :=
  match a, b with
  | some x, some y => y ≤ x
  | _, _ => false

/-- Models the running-maximum update of the source: assign u when u > m. -/
def fmax (m u : Option ℚ) : Option ℚ := if fgt u m then u else m

/-- Action node (maximum tree), from struct Node<T, A>: maximum utility of
itself or any children, node data, and the (action, child) list. -/
inductive Node (T A : Type) : Type where
  | mk (max : Option ℚ) (data : T) (children : List (A × Node T A))

/-- Field max of Node. -/
def Node.max {T A : Type} : Node T A → Option ℚ
  | .mk m _ _ => m

/-- Field data of Node. -/
def Node.data {T A : Type} : Node T A → T
  | .mk _ d _ => d

/-- Field children of Node. -/
def Node.children {T A : Type} : Node T A → List (A × Node T A)
  | .mk _ _ c => c

/-- Node::root: utility set to NaN (the none sentinel), no children. -/
def Node.root {T A : Type} (data : T) : Node T A := Node.mk none data []

/-- Loop body of Node::optimal: scan children with their indices, returning
the first index whose child max satisfies ch.max >= m. -/
def optimalAux {T A : Type} (m : Option ℚ) : List (A × Node T A) → ℕ → Option ℕ
  | [], _ => none
  | p :: rest, i => if fge p.2.max m then some i else optimalAux m rest (i + 1)

/-- Node::optimal: index of the first child whose max is >= the node max. -/
def Node.optimal {T A : Type} (n : Node T A) : Option ℕ :=
  optimalAux n.max n.children 0

/-- Node::terminal: true when optimal() is none. -/
def Node.terminal {T A : Type} (n : Node T A) : Bool :=
  n.optimal.isNone

mutual

/-- Node::optimal_path: repeatedly apply optimal() and descend into the
chosen child, collecting the chosen indices.  The loop of the source is fused
with the scan of optimal(): the scan finds the first child with
ch.max >= m, pushes its index and continues from that child. -/
def Node.optimal_path {T A : Type} : Node T A → List ℕ
  | .mk m _ c => optimalPathAux m c 0

/-- The scan of Node::optimal inside the optimal_path loop. -/
def optimalPathAux {T A : Type} (m : Option ℚ) :
    List (A × Node T A) → ℕ → List ℕ
  | [], _ => []
  | p :: rest, i =>
    if fge p.2.max m then i :: p.2.optimal_path else optimalPathAux m rest (i + 1)

end

/-- struct AiSettings. -/
structure AiSettings : Type where
  max_depth : ℕ
  eps_depth : ℚ
  analysis : Bool
  greed_elim : Bool
  max_mib : Option ℚ

/-- AiSettings::new. -/
def AiSettings.new (max_depth : ℕ) (eps_depth : ℚ) : AiSettings :=
  ⟨max_depth, eps_depth, false, true, none⟩

/-- struct AiAnalysis: the telemetry node counter. -/
structure AiAnalysis : Type where
  node_count : ℕ

/-- AiAnalysis::mib: node_count * node_size / 1048576. -/
def AiAnalysis.mib (a : AiAnalysis) (node_size : ℕ) : ℚ :=
  ((a.node_count : ℚ) * (node_size : ℚ)) / 1048576

/-- struct Ai<T, A, C>: the four domain callbacks plus settings.  The
node_size field models std::mem::size_of::<Node<T, A>>(), kept as an abstract
constant because memory layout is outside the embedding; the mutable
AiAnalysis counter is threaded explicitly through every operation as a ℕ. -/
structure Ai (T A C : Type) : Type where
  utility : T → C → ℚ
  actions : T → C → List A
  execute : T → A → C → Option T × C
  undo : T → C → C
  settings : AiSettings
  node_size : ℕ

/-- Ai::utility_with_settings: utility plus the depth discount term. -/
def Ai.utility_with_settings {T A C : Type} (ai : Ai T A C) (data : T)
    (depth : ℕ) (ctx : C) : ℚ :=
  ai.utility data ctx + (-ai.settings.eps_depth * (depth : ℚ))

/-- Ai::update: execute the optimal child action against the live context,
without any undo; returns the chosen index on success. -/
def Ai.update {T A C : Type} (ai : Ai T A C) (node : Node T A) (ctx : C) :
    Option ℕ × C :=
  match node.optimal with
  | some i =>
    match node.children[i]? with
    | some (a, _) =>
      match ai.execute node.data a ctx with
      | (some _, ctx₁) => (some i, ctx₁)
      | (none, ctx₁) => (none, ctx₁)
    | none => (none, ctx)
  | none => (none, ctx)

/-- Loop body of Ai::sub_breadth over the action list.  The state is the
node being expanded, the context and the telemetry counter. -/
def breadthLoop {T A C : Type} (ai : Ai T A C) (rdata : T) (depth : ℕ) :
    List A → Node T A × C × ℕ → Node T A × C × ℕ
  | [], st => st
  | a :: rest, (root, ctx, count) =>
    match ai.execute rdata a ctx with
    | (some data, ctx₁) =>
      let utility := ai.utility_with_settings data (depth + 1) ctx₁
      let root₁ := if fgt (some utility) root.max then
          Node.mk (some utility) root.data root.children else root
      let ctx₂ := ai.undo data ctx₁
      let root₂ := Node.mk root₁.max root₁.data
          (root₁.children ++ [(a, Node.mk (some utility) data [])])
      let count₁ := if ai.settings.analysis then count + 1 else count
      breadthLoop ai rdata depth rest (root₂, ctx₂, count₁)
    | (none, ctx₁) => breadthLoop ai rdata depth rest (root, ctx₁, count)

/-- Ai::sub_breadth: clear the children, then for every action that executes
successfully compute the discounted utility in the mutated context, raise the
node max, undo the mutation, append a fresh leaf child and count it. -/
def Ai.sub_breadth {T A C : Type} (ai : Ai T A C) (root : Node T A)
    (depth : ℕ) (ctx : C) (count : ℕ) : Node T A × C × ℕ :=
  breadthLoop ai root.data depth (ai.actions root.data ctx)
    (Node.mk root.max root.data [], ctx, count)

/-- Ai::memory_exceeded: true when analysis is on, a limit is set and the
mib estimate meets or exceeds it. -/
def Ai.memory_exceeded {T A C : Type} (ai : Ai T A C) (count : ℕ) : Bool :=
  if ai.settings.analysis then
    match ai.settings.max_mib with
    | some limit => decide (limit ≤ AiAnalysis.mib ⟨count⟩ ai.node_size)
    | none => false
  else false

/-- Loop body of Ai::full over the freshly expanded children: re-execute each
action, recurse through the function argument go, undo, and fold the result
max into the running node max. -/
def fullKids {T A C : Type} (ai : Ai T A C)
    (go : Node T A → C → ℕ → Node T A × C × ℕ) (rdata : T) :
    List (A × Node T A) → C → ℕ → Option ℚ →
    List (A × Node T A) × C × ℕ × Option ℚ
  | [], ctx, count, m => ([], ctx, count, m)
  | (a, ch) :: rest, ctx, count, m =>
    match ai.execute rdata a ctx with
    | (some _, ctx₁) =>
      let r := go ch ctx₁ count
      let ctx₂ := ai.undo r.1.data r.2.1
      let m₁ := if fgt r.1.max m then r.1.max else m
      let s := fullKids ai go rdata rest ctx₂ r.2.2 m₁
      ((a, r.1) :: s.1, s.2)
    | (none, ctx₁) =>
      let s := fullKids ai go rdata rest ctx₁ count m
      ((a, ch) :: s.1, s.2)

/-- Ai::full, with fuel making the recursion structural.  Ai.full below
supplies fuel max_depth + 1 - depth; since the body recurses only when
depth < max_depth, the fuel never runs out and the fuel-0 branch is exactly
the source behavior at depth >= max_depth + 1 (initialize, breadth-expand,
and stop at the depth guard). -/
def fullGo {T A C : Type} (ai : Ai T A C) :
    ℕ → Node T A → ℕ → C → ℕ → Node T A × C × ℕ
  | 0, root, depth, ctx, count =>
    let root₀ := if root.max.isNone then
        Node.mk (some (ai.utility_with_settings root.data depth ctx))
          root.data root.children else root
    ai.sub_breadth root₀ depth ctx count
  | fuel + 1, root, depth, ctx, count =>
    let root₀ := if root.max.isNone then
        Node.mk (some (ai.utility_with_settings root.data depth ctx))
          root.data root.children else root
    let r := ai.sub_breadth root₀ depth ctx count
    if ai.settings.max_depth ≤ depth then r
    else if ai.memory_exceeded r.2.2 then r
    else
      let s := fullKids ai (fun ch c n => fullGo ai fuel ch (depth + 1) c n)
        r.1.data r.1.children r.2.1 r.2.2 r.1.max
      (Node.mk s.2.2.2 r.1.data s.1, s.2.1, s.2.2.1)

/-- Ai::full: initialize a NaN max to the own discounted utility, expand one
breadth level, and unless the depth or memory bound stops the search,
re-execute every child action, recurse into the child, undo, and fold the
child max into the node max. -/
def Ai.full {T A C : Type} (ai : Ai T A C) (root : Node T A) (depth : ℕ)
    (ctx : C) (count : ℕ) : Node T A × C × ℕ :=
  fullGo ai (ai.settings.max_depth + 1 - depth) root depth ctx count

/-- Ai::greedy, with fuel making the recursion structural, as for fullGo.
After the breadth expansion and the depth and memory guards, the optimal
child is selected; with greed_elim the telemetry counter is decremented by
the number of discarded children and the children are truncated to the
chosen one; then the chosen action is re-executed, the search recurses into
the chosen child, the context is undone, and the child max is folded in. -/
def greedyGo {T A C : Type} (ai : Ai T A C) :
    ℕ → Node T A → ℕ → C → ℕ → Node T A × C × ℕ
  | 0, root, depth, ctx, count =>
    let root₀ := if root.max.isNone then
        Node.mk (some (ai.utility_with_settings root.data depth ctx))
          root.data root.children else root
    ai.sub_breadth root₀ depth ctx count
  | fuel + 1, root, depth, ctx, count =>
    let root₀ := if root.max.isNone then
        Node.mk (some (ai.utility_with_settings root.data depth ctx))
          root.data root.children else root
    let r := ai.sub_breadth root₀ depth ctx count
    if ai.settings.max_depth ≤ depth then r
    else if ai.memory_exceeded r.2.2 then r
    else
      match r.1.optimal with
      | none => r
      | some i =>
        match r.1.children[i]? with
        | none => r
        | some (a, ch) =>
          let count₁ := if ai.settings.greed_elim && ai.settings.analysis then
              r.2.2 - (r.1.children.length - 1) else r.2.2
          let kids₁ := if ai.settings.greed_elim then [(a, ch)] else r.1.children
          let i₁ := if ai.settings.greed_elim then 0 else i
          match ai.execute r.1.data a r.2.1 with
          | (some _, ctx₁) =>
            let g := greedyGo ai fuel ch (depth + 1) ctx₁ count₁
            let ctx₂ := ai.undo g.1.data g.2.1
            let m₁ := if fgt g.1.max r.1.max then g.1.max else r.1.max
            (Node.mk m₁ r.1.data (kids₁.set i₁ (a, g.1)), ctx₂, g.2.2)
          | (none, ctx₁) => (Node.mk r.1.max r.1.data kids₁, ctx₁, count₁)

/-- Ai::greedy: local search descending only into the optimal child, with
optional greedy elimination of the other children. -/
def Ai.greedy {T A C : Type} (ai : Ai T A C) (root : Node T A) (depth : ℕ)
    (ctx : C) (count : ℕ) : Node T A × C × ℕ :=
  greedyGo ai (ai.settings.max_depth + 1 - depth) root depth ctx count

/-- Inner fold of the brute-force reference enumeration: fold the maxima of
the explored subtrees of the successful actions over a running maximum. -/
def bruteFold {T A C : Type} (ai : Ai T A C) (go : T → C → ℚ) (data : T)
    (ctx : C) : List A → ℚ → ℚ
  | [], m => m
  | a :: rest, m =>
    match ai.execute data a ctx with
    | (some d, ctx₁) => bruteFold ai go data ctx rest (Max.max m (go d ctx₁))
    | (none, _) => bruteFold ai go data ctx rest m

/-- Brute-force reference enumeration, written from the specification of the
search result rather than from the search code: the best discounted utility
utility_with_settings(data, d, ctx) over every state of the action tree
reached by at most fuel successful actions from the given state. -/
def bruteMax {T A C : Type} (ai : Ai T A C) :
    ℕ → T → C → ℕ → ℚ
  | 0, data, ctx, depth => ai.utility_with_settings data depth ctx
  | fuel + 1, data, ctx, depth =>
    bruteFold ai (fun d c => bruteMax ai fuel d c (depth + 1)) data ctx
      (ai.actions data ctx) (ai.utility_with_settings data depth ctx)

/-- Fold the maxima of a child list over a running maximum, with the NaN
semantics of the source comparisons. -/
def foldMaxKids {T A : Type} (m : Option ℚ) (c : List (A × Node T A)) :
    Option ℚ :=
  c.foldl (fun acc p => fmax acc p.2.max) m

mutual

/-- Independent recomputation of the maximum-tree invariant: at every node
reachable by replaying the recorded actions, max equals the fold of the own
discounted utility at the node depth with the maxima of the children. -/
def evalInv {T A C : Type} (ai : Ai T A C) : Node T A → ℕ → C → Bool
  | .mk m data c, depth, ctx =>
    decide (m = foldMaxKids (some (ai.utility_with_settings data depth ctx)) c)
      && evalInvKids ai data c depth ctx

/-- The child clause of evalInv: replay each recorded action from the parent
context and check the child invariant in the mutated context. -/
def evalInvKids {T A C : Type} (ai : Ai T A C) (rdata : T) :
    List (A × Node T A) → ℕ → C → Bool
  | [], _, _ => true
  | (a, ch) :: rest, depth, ctx =>
    (match ai.execute rdata a ctx with
     | (some _, ctx₁) => evalInv ai ch (depth + 1) ctx₁
     | (none, _) => true)
      && evalInvKids ai rdata rest depth ctx

end

mutual

/-- Number of nodes of a tree, the root included. -/
def nodeCount {T A : Type} : Node T A → ℕ
  | .mk _ _ c => 1 + nodeCountKids c

/-- Sum of the node counts of a child list. -/
def nodeCountKids {T A : Type} : List (A × Node T A) → ℕ
  | [] => 0
  | p :: rest => nodeCount p.2 + nodeCountKids rest

end

mutual

/-- Shape left by greedy elimination: every node either keeps at most one
child or all its children are unexpanded leaves of the final breadth level. -/
def prunedShape {T A : Type} : Node T A → Bool
  | .mk _ _ c =>
    (decide (c.length ≤ 1) || c.all (fun p => p.2.children.isEmpty))
      && prunedShapeKids c

/-- prunedShape over a child list. -/
def prunedShapeKids {T A : Type} : List (A × Node T A) → Bool
  | [] => true
  | p :: rest => prunedShape p.2 && prunedShapeKids rest

end

/-- Geometric node count b^1 + b^2 + ... + b^m. -/
def geomS (b : ℕ) : ℕ → ℕ
  | 0 => 0
  | m + 1 => b + b * geomS b m

/-- Callback contract of the undo callback: undo exactly inverts the context
mutation of the matching successful execute call. -/
def UndoExact (ai : Ai T A C) : Prop :=
  ∀ t a c d c₁, ai.execute t a c = (some d, c₁) → ai.undo d c₁ = c

/-- A failing execute call leaves the context unchanged. -/
def FailKeepsCtx (ai : Ai T A C) : Prop :=
  ∀ t a c c₁, ai.execute t a c = (none, c₁) → c₁ = c

/-- Failure-free action space: every execute call succeeds. -/
def ExecTotal (ai : Ai T A C) : Prop :=
  ∀ t a c, (ai.execute t a c).1.isSome

/-- The leaf children built by sub_breadth from a fixed context: one leaf per
successful action, in enumeration order, carrying the discounted utility of
the mutated context at depth + 1. -/
def kidsOf (ai : Ai T A C) (rdata : T) (depth : ℕ) (ctx : C) (acts : List A) :
    List (A × Node T A) :=
  acts.filterMap (fun a =>
    match ai.execute rdata a ctx with
    | (some d, c₁) =>
      some (a, Node.mk (some (ai.utility_with_settings d (depth + 1) c₁)) d [])
    | (none, _) => none)

/-- The lazy first-visit initialization of a NaN node max shared by full and
greedy. -/
def initNode (ai : Ai T A C) (root : Node T A) (depth : ℕ) (ctx : C) :
    Node T A :=
  if root.max.isNone then
    Node.mk (some (ai.utility_with_settings root.data depth ctx))
      root.data root.children
  else root

/-- The shape of the children produced by sub_breadth: each child is a fresh
leaf recording a successful execute from the given context. -/
def KidsOk (ai : Ai T A C) (rdata : T) (depth : ℕ) (ctx : C)
    (l : List (A × Node T A)) : Prop :=
  ∀ p ∈ l, ∃ c₁, ai.execute rdata p.1 ctx = (some p.2.data, c₁) ∧
    p.2.max = some (ai.utility_with_settings p.2.data (depth + 1) c₁) ∧
    p.2.children = []

/-- A concrete domain for witnesses: a walk on the rational line.  The action
true moves one step right, false one step left; the node data records the
delta so that undo can subtract it; utility is the current position. -/
def lineAi : Ai ℚ Bool ℚ where
  utility := fun _ c => c
  actions := fun _ _ => [true, false]
  execute := fun _ a c =>
    (some (if a then 1 else -1), c + (if a then 1 else -1))
  undo := fun t c => c - t
  settings := ⟨2, 0, true, true, none⟩
  node_size := 64

/-- A domain whose execute always fails and mutates the context anyway,
which the Rust signature fn(&T, &A, &mut C) -> Result<T, ()> permits. -/
def failAi : Ai Unit Unit ℕ where
  utility := fun _ _ => 0
  actions := fun _ _ => [()]
  execute := fun _ _ c => (none, c + 1)
  undo := fun _ c => c
  settings := ⟨1, 0, false, true, none⟩
  node_size := 0

/-- A failure-free two-action domain with max depth 0, telemetry on. -/
def pairAi : Ai Unit Bool Unit where
  utility := fun _ _ => 0
  actions := fun _ _ => [true, false]
  execute := fun _ _ _ => (some (), ())
  undo := fun _ _ => ()
  settings := ⟨0, 0, true, true, none⟩
  node_size := 0

/-- As pairAi but with max depth 1. -/
def pairAi2 : Ai Unit Bool Unit where
  utility := fun _ _ => 0
  actions := fun _ _ => [true, false]
  execute := fun _ _ _ => (some (), ())
  undo := fun _ _ => ()
  settings := ⟨1, 0, true, true, none⟩
  node_size := 0

/-- A concrete two-child node: own max 5, children with max 3 and 7. -/
def exNode : Node ℚ ℕ :=
  Node.mk (some 5) 0 [(0, Node.mk (some 3) 0 []), (1, Node.mk (some 7) 0 [])]

/-- A node whose single child dominates its max. -/
def exNodeFail : Node Unit Unit :=
  Node.mk (some 0) () [((), Node.mk (some 1) () [])]

/-- A node over the lineAi action type whose single child dominates its max. -/
def exNodeLine : Node ℚ Bool :=
  Node.mk (some 0) 0 [(true, Node.mk (some 1) 0 [])]

/-- A node with stale children, for the destructive re-expansion witness. -/
def dirtyNode : Node ℚ Bool :=
  Node.mk (some 0) 0 [(true, Node.mk (some 99) 7 [])]

@[simp] theorem Node.max_mk {T A : Type} (m : Option ℚ) (d : T)
    (c : List (A × Node T A)) : (Node.mk m d c).max = m := rfl

@[simp] theorem Node.data_mk {T A : Type} (m : Option ℚ) (d : T)
    (c : List (A × Node T A)) : (Node.mk m d c).data = d := rfl

@[simp] theorem Node.children_mk {T A : Type} (m : Option ℚ) (d : T)
    (c : List (A × Node T A)) : (Node.mk m d c).children = c := rfl

theorem Node.ext_iff {T A : Type} (n : Node T A) :
    n = Node.mk n.max n.data n.children := by
  cases n
  rfl

@[simp] theorem fgt_none_right (a : Option ℚ) : fgt a none = false := by
  cases a
  rfl
  rfl

@[simp] theorem fgt_none_left (b : Option ℚ) : fgt none b = false := rfl

@[simp] theorem fge_none_right (a : Option ℚ) : fge a none = false := by
  cases a
  rfl
  rfl

@[simp] theorem fge_none_left (b : Option ℚ) : fge none b = false := rfl

theorem fge_some_some (x y : ℚ) : fge (some x) (some y) = decide (y ≤ x) := rfl

@[simp] theorem fmax_none_right (m : Option ℚ) : fmax m none = m := by
  simp [fmax]

theorem fmax_some_some (x y : ℚ) : fmax (some x) (some y) = some (Max.max x y) := by
  simp only [fmax, fgt]
  by_cases h : x < y
  · simp [h, max_eq_right h.le]
  · simp [h, max_eq_left (not_lt.mp h)]

theorem fmax_isSome_left (m u : Option ℚ) (h : m.isSome) : (fmax m u).isSome := by
  cases m
  simp at h
  cases u
  simp
  simp [fmax_some_some]

theorem fmax_absorb (x pm qm : Option ℚ) (hx : x.isSome) (h : fge qm pm = true) :
    fmax (fmax x pm) qm = fmax x qm := by
  cases pm with
  | none => simp
  | some pb =>
    cases qm with
    | none => simp [fge] at h
    | some qf =>
      cases x with
      | none => simp at hx
      | some a =>
        simp only [fge, decide_eq_true_eq] at h
        rw [fmax_some_some, fmax_some_some, fmax_some_some, max_assoc,
          max_eq_right h]

theorem fmax_swap (z q pm : Option ℚ) (hz : z.isSome) (hq : q.isSome) :
    fmax (fmax z pm) q = fmax (fmax z q) pm := by
  cases z with
  | none => simp at hz
  | some a =>
    cases q with
    | none => simp at hq
    | some b =>
      cases pm with
      | none => simp
      | some c =>
        rw [fmax_some_some, fmax_some_some, fmax_some_some, fmax_some_some]
        exact congrArg some (by rw [max_assoc, max_comm c b, ← max_assoc])

theorem foldMaxKids_nil (m : Option ℚ) : foldMaxKids (T := T) (A := A) m [] = m := rfl

theorem foldMaxKids_cons (m : Option ℚ) (p : A × Node T A) (l : List (A × Node T A)) :
    foldMaxKids m (p :: l) = foldMaxKids (fmax m p.2.max) l := rfl

theorem foldMaxKids_isSome (l : List (A × Node T A)) :
    ∀ m : Option ℚ, m.isSome → (foldMaxKids m l).isSome := by
  induction l with
  | nil => intro m hm; simpa [foldMaxKids_nil] using hm
  | cons p l ih =>
    intro m hm
    rw [foldMaxKids_cons]
    exact ih _ (fmax_isSome_left _ _ hm)

theorem foldMaxKids_some_mono (l : List (A × Node T A)) :
    ∀ q : ℚ, ∃ q₁, q ≤ q₁ ∧ foldMaxKids (some q) l = some q₁ := by
  induction l with
  | nil => intro q; exact ⟨q, le_refl q, rfl⟩
  | cons p l ih =>
    intro q
    rw [foldMaxKids_cons]
    cases hpm : p.2.max with
    | none => simpa using ih q
    | some y =>
      rw [fmax_some_some]
      obtain ⟨q₁, hle, heq⟩ := ih (Max.max q y)
      exact ⟨q₁, le_trans (le_max_left q y) hle, heq⟩

theorem foldMaxKids_fmax_swap (l : List (A × Node T A)) :
    ∀ z q : Option ℚ, z.isSome → q.isSome →
      fmax (foldMaxKids z l) q = foldMaxKids (fmax z q) l := by
  induction l with
  | nil => intro z q _ _; rfl
  | cons p l ih =>
    intro z q hz hq
    rw [foldMaxKids_cons, foldMaxKids_cons,
      ih _ _ (fmax_isSome_left _ _ hz) hq, fmax_swap _ _ _ hz hq]

theorem foldMaxKids_absorb {lb lf : List (A × Node T A)}
    (hll : List.Forall₂ (fun p q => fge q.2.max p.2.max = true ∧ q.2.max.isSome) lb lf) :
    ∀ x : Option ℚ, x.isSome →
      foldMaxKids (foldMaxKids x lb) lf = foldMaxKids x lf := by
  induction hll with
  | nil => intro x _; rfl
  | @cons p q lb lf hpq hll ih =>
    intro x hx
    rw [foldMaxKids_cons, foldMaxKids_cons, foldMaxKids_cons,
      foldMaxKids_fmax_swap _ _ _ (fmax_isSome_left _ _ hx) hpq.2,
      fmax_absorb _ _ _ hx hpq.1]
    exact ih _ (fmax_isSome_left _ _ hx)

theorem optimalAux_none_iff (m : Option ℚ) :
    ∀ (l : List (A × Node T A)) (j : ℕ),
      optimalAux m l j = none ↔ ∀ p ∈ l, fge p.2.max m = false := by
  intro l
  induction l with
  | nil => intro j; simp [optimalAux]
  | cons p l ih =>
    intro j
    by_cases h : fge p.2.max m = true
    · simp only [optimalAux, h, if_true]
      constructor
      · intro hc
        simp at hc
      · intro hall
        have hp := hall p (by simp)
        simp [h] at hp
    · have hp : fge p.2.max m = false := by simpa using h
      simp only [optimalAux, hp, Bool.false_eq_true, if_false]
      rw [ih (j + 1)]
      constructor
      · intro hall q hq
        rcases List.mem_cons.mp hq with hq | hq
        · rw [hq]
          exact hp
        · exact hall q hq
      · intro hall q hq
        exact hall q (List.mem_cons_of_mem _ hq)

theorem optimalAux_some_spec (m : Option ℚ) :
    ∀ (l : List (A × Node T A)) (j i : ℕ), optimalAux m l j = some i →
      j ≤ i ∧ i - j < l.length ∧
      (∃ p, l[i - j]? = some p ∧ fge p.2.max m = true) ∧
      (∀ k p, k < i - j → l[k]? = some p → fge p.2.max m = false) := by
  intro l
  induction l with
  | nil => intro j i h; simp [optimalAux] at h
  | cons p l ih =>
    intro j i h
    by_cases hp : fge p.2.max m = true
    · simp [optimalAux, hp] at h
      subst h
      refine ⟨le_refl j, by simp, ⟨p, by simp, hp⟩, ?_⟩
      intro k q hk
      omega
    · simp [optimalAux, hp] at h
      obtain ⟨hji, hlen, ⟨q, hq, hqge⟩, hfirst⟩ := ih (j + 1) i h
      have hij : j + 1 ≤ i := hji
      refine ⟨by omega, by simp; omega, ⟨q, ?_, hqge⟩, ?_⟩
      · have : i - j = (i - (j + 1)) + 1 := by omega
        rw [this]
        simpa using hq
      · intro k r hk hr
        cases k with
        | zero =>
          simp at hr
          rw [← hr]
          simpa using hp
        | succ k =>
          simp at hr
          apply hfirst k r (by omega) hr

theorem optimal_none_iff (n : Node T A) :
    n.optimal = none ↔ ∀ p ∈ n.children, fge p.2.max n.max = false := by
  rw [Node.optimal, optimalAux_none_iff]

theorem optimal_some_spec (n : Node T A) (i : ℕ) (h : n.optimal = some i) :
    i < n.children.length ∧
    (∃ p, n.children[i]? = some p ∧ fge p.2.max n.max = true) ∧
    (∀ k p, k < i → n.children[k]? = some p → fge p.2.max n.max = false) := by
  have hsp := optimalAux_some_spec n.max n.children 0 i h
  simpa using hsp

theorem optimalPathAux_spec (m : Option ℚ) :
    ∀ (l : List (A × Node T A)) (j : ℕ),
      (optimalAux m l j = none → optimalPathAux m l j = []) ∧
      (∀ i, optimalAux m l j = some i →
        ∃ p, l[i - j]? = some p ∧ optimalPathAux m l j = i :: p.2.optimal_path) := by
  intro l
  induction l with
  | nil => intro j; exact ⟨fun _ => rfl, by intro i h; simp [optimalAux] at h⟩
  | cons p l ih =>
    intro j
    by_cases hp : fge p.2.max m = true
    · constructor
      · intro h
        simp [optimalAux, hp] at h
      · intro i h
        simp [optimalAux, hp] at h
        subst h
        exact ⟨p, by simp, by simp [optimalPathAux, hp]⟩
    · constructor
      · intro h
        simp [optimalAux, hp] at h
        simp [optimalPathAux, hp]
        exact ((ih (j + 1)).1 h)
      · intro i h
        simp [optimalAux, hp] at h
        obtain ⟨q, hq, hpath⟩ := (ih (j + 1)).2 i h
        have hji := (optimalAux_some_spec m l (j + 1) i h).1
        have hsub : i - j = (i - (j + 1)) + 1 := by omega
        refine ⟨q, ?_, ?_⟩
        · rw [hsub]
          simpa using hq
        · simp [optimalPathAux, hp]
          exact hpath

theorem optimal_path_none (n : Node T A) (h : n.optimal = none) :
    n.optimal_path = [] := by
  cases n with
  | mk m d c =>
    simp only [Node.optimal, Node.children_mk, Node.max_mk] at h
    have h0 := (optimalPathAux_spec m c 0).1 h
    simpa [Node.optimal_path] using h0

theorem optimal_path_some (n : Node T A) (i : ℕ) (h : n.optimal = some i) :
    ∃ p, n.children[i]? = some p ∧ n.optimal_path = i :: p.2.optimal_path := by
  cases n with
  | mk m d c =>
    have hsp := (optimalPathAux_spec m c 0).2 i (by simpa [Node.optimal] using h)
    simpa [Node.optimal_path] using hsp

theorem execTotal_failKeepsCtx (ai : Ai T A C) (he : ExecTotal ai) :
    FailKeepsCtx ai := by
  intro t a c c₁ h
  have hs := he t a c
  rw [h] at hs
  simp at hs

theorem kidsOf_nil (ai : Ai T A C) (rdata : T) (depth : ℕ) (ctx : C) :
    kidsOf ai rdata depth ctx [] = [] := rfl

theorem kidsOf_cons_success (ai : Ai T A C) {rdata : T} (depth : ℕ) {ctx : C}
    {a : A} {d : T} {c₁ : C} (acts : List A)
    (h : ai.execute rdata a ctx = (some d, c₁)) :
    kidsOf ai rdata depth ctx (a :: acts) =
      (a, Node.mk (some (ai.utility_with_settings d (depth + 1) c₁)) d []) ::
        kidsOf ai rdata depth ctx acts := by
  simp [kidsOf, List.filterMap_cons, h]

theorem kidsOf_cons_fail (ai : Ai T A C) {rdata : T} (depth : ℕ) {ctx : C}
    {a : A} {c₁ : C} (acts : List A)
    (h : ai.execute rdata a ctx = (none, c₁)) :
    kidsOf ai rdata depth ctx (a :: acts) = kidsOf ai rdata depth ctx acts := by
  simp [kidsOf, List.filterMap_cons, h]

theorem kidsOf_mem (ai : Ai T A C) {rdata : T} {depth : ℕ} {ctx : C}
    {acts : List A} {p : A × Node T A} (hp : p ∈ kidsOf ai rdata depth ctx acts) :
    ∃ c₁, ai.execute rdata p.1 ctx = (some p.2.data, c₁) ∧
      p.2.max = some (ai.utility_with_settings p.2.data (depth + 1) c₁) ∧
      p.2.children = [] := by
  rw [kidsOf, List.mem_filterMap] at hp
  obtain ⟨a, _, heq⟩ := hp
  rcases hx : ai.execute rdata a ctx with ⟨od, c₁⟩
  cases od with
  | none => rw [hx] at heq; simp at heq
  | some d =>
    rw [hx] at heq
    simp only [Option.some_inj] at heq
    rw [← heq]
    exact ⟨c₁, by simpa using hx, rfl, rfl⟩

theorem kidsOf_length_of_execTotal (ai : Ai T A C) (he : ExecTotal ai)
    (rdata : T) (depth : ℕ) (ctx : C) (acts : List A) :
    (kidsOf ai rdata depth ctx acts).length = acts.length := by
  induction acts with
  | nil => rfl
  | cons a acts ih =>
    rcases hx : ai.execute rdata a ctx with ⟨od, c₁⟩
    cases od with
    | none =>
      have hs := he rdata a ctx
      rw [hx] at hs
      simp at hs
    | some d =>
      rw [kidsOf_cons_success ai depth acts hx]
      simp [ih]

theorem fgt_if_eq_fmax {T A : Type} (root : Node T A) (u : ℚ) :
    (if fgt (some u) root.max then Node.mk (some u) root.data root.children
     else root) =
    Node.mk (fmax root.max (some u)) root.data root.children := by
  rw [fmax]
  by_cases hc : fgt (some u) root.max
  · simp [hc]
  · simp only [hc, Bool.false_eq_true, if_false]
    rw [← Node.ext_iff]

theorem breadthLoop_eq (ai : Ai T A C) (hu : UndoExact ai) (hf : FailKeepsCtx ai)
    (rdata : T) (depth : ℕ) :
    ∀ (acts : List A) (root : Node T A) (ctx : C) (count : ℕ),
      breadthLoop ai rdata depth acts (root, ctx, count) =
        (Node.mk (foldMaxKids root.max (kidsOf ai rdata depth ctx acts)) root.data
           (root.children ++ kidsOf ai rdata depth ctx acts),
         ctx,
         count + (if ai.settings.analysis then
           (kidsOf ai rdata depth ctx acts).length else 0)) := by
  intro acts
  induction acts with
  | nil =>
    intro root ctx count
    simp only [breadthLoop, kidsOf_nil, foldMaxKids_nil, List.append_nil]
    rw [← Node.ext_iff]
    simp
  | cons a acts ih =>
    intro root ctx count
    simp only [breadthLoop]
    rcases hx : ai.execute rdata a ctx with ⟨od, c₁⟩
    cases od with
    | some d =>
      dsimp only
      rw [fgt_if_eq_fmax root (ai.utility_with_settings d (depth + 1) c₁)]
      simp only [Node.max_mk, Node.data_mk, Node.children_mk]
      rw [hu rdata a ctx d c₁ hx]
      rw [ih]
      rw [kidsOf_cons_success ai depth acts hx, foldMaxKids_cons]
      simp only [Node.max_mk, Node.data_mk, Node.children_mk, Prod.mk.injEq,
        List.length_cons]
      refine ⟨?_, trivial, ?_⟩
      · simp [List.append_assoc]
      · by_cases ha : ai.settings.analysis
        · simp [ha]
          omega
        · simp [ha]
    | none =>
      have hc : c₁ = ctx := hf rdata a ctx c₁ hx
      subst hc
      dsimp only
      rw [ih]
      rw [kidsOf_cons_fail ai depth acts hx]

theorem sub_breadth_spec (ai : Ai T A C) (hu : UndoExact ai)
    (hf : FailKeepsCtx ai) (root : Node T A) (depth : ℕ) (ctx : C) (count : ℕ) :
    ai.sub_breadth root depth ctx count =
      (Node.mk
         (foldMaxKids root.max
           (kidsOf ai root.data depth ctx (ai.actions root.data ctx)))
         root.data (kidsOf ai root.data depth ctx (ai.actions root.data ctx)),
       ctx,
       count + (if ai.settings.analysis then
         (kidsOf ai root.data depth ctx (ai.actions root.data ctx)).length
         else 0)) := by
  rw [Ai.sub_breadth, breadthLoop_eq ai hu hf]
  simp

theorem breadthLoop_general (ai : Ai T A C) (rdata : T) (depth : ℕ) :
    ∀ (acts : List A) (root : Node T A) (ctx : C) (count : ℕ),
      ∃ M news ctx₂,
        breadthLoop ai rdata depth acts (root, ctx, count) =
          (Node.mk M root.data (root.children ++ news), ctx₂,
           count + (if ai.settings.analysis then news.length else 0)) ∧
        ∀ p ∈ news, p.2.children = [] := by
  intro acts
  induction acts with
  | nil =>
    intro root ctx count
    refine ⟨root.max, [], ctx, ?_, by simp⟩
    simp only [breadthLoop, List.append_nil]
    rw [← Node.ext_iff]
    simp
  | cons a acts ih =>
    intro root ctx count
    simp only [breadthLoop]
    rcases hx : ai.execute rdata a ctx with ⟨od, c₁⟩
    cases od with
    | some d =>
      dsimp only
      rw [fgt_if_eq_fmax root (ai.utility_with_settings d (depth + 1) c₁)]
      simp only [Node.max_mk, Node.data_mk, Node.children_mk]
      obtain ⟨M, news, ctx₂, heq, hleaf⟩ :=
        ih (Node.mk (fmax root.max
              (some (ai.utility_with_settings d (depth + 1) c₁))) root.data
             (root.children ++
               [(a, Node.mk (some (ai.utility_with_settings d (depth + 1) c₁))
                  d [])]))
           (ai.undo d c₁)
           (if ai.settings.analysis then count + 1 else count)
      simp only [Node.max_mk, Node.data_mk, Node.children_mk] at heq
      refine ⟨M,
        (a, Node.mk (some (ai.utility_with_settings d (depth + 1) c₁)) d []) ::
          news, ctx₂, ?_, ?_⟩
      · rw [heq]
        simp only [Prod.mk.injEq, List.length_cons]
        refine ⟨?_, trivial, ?_⟩
        · simp [List.append_assoc]
        · by_cases ha : ai.settings.analysis
          · simp [ha]
            omega
          · simp [ha]
      · intro p hp
        rcases List.mem_cons.mp hp with hp | hp
        · rw [hp]
          rfl
        · exact hleaf p hp
    | none =>
      dsimp only
      exact ih root c₁ count

theorem sub_breadth_general (ai : Ai T A C) (root : Node T A) (depth : ℕ)
    (ctx : C) (count : ℕ) :
    ∃ M news ctx₂,
      ai.sub_breadth root depth ctx count =
        (Node.mk M root.data news, ctx₂,
         count + (if ai.settings.analysis then news.length else 0)) ∧
      ∀ p ∈ news, p.2.children = [] := by
  obtain ⟨M, news, ctx₂, heq, hleaf⟩ :=
    breadthLoop_general ai root.data depth (ai.actions root.data ctx)
      (Node.mk root.max root.data []) ctx count
  simp only [Node.data_mk, Node.children_mk, List.nil_append] at heq
  exact ⟨M, news, ctx₂, heq, hleaf⟩

theorem breadthLoop_max_none (ai : Ai T A C) (rdata : T) (depth : ℕ) :
    ∀ (acts : List A) (root : Node T A) (ctx : C) (count : ℕ),
      root.max = none →
      (breadthLoop ai rdata depth acts (root, ctx, count)).1.max = none := by
  intro acts
  induction acts with
  | nil => intro root ctx count h; simpa [breadthLoop] using h
  | cons a acts ih =>
    intro root ctx count h
    simp only [breadthLoop]
    rcases hx : ai.execute rdata a ctx with ⟨od, c₁⟩
    cases od with
    | some d =>
      rw [h]
      simp only [fgt_none_right, Bool.false_eq_true, if_false]
      exact ih _ _ _ (by simp [h])
    | none => exact ih root c₁ count h

theorem optimal_of_max_none {n : Node T A} (h : n.max = none) :
    n.optimal = none := by
  rw [optimal_none_iff]
  intro p _
  rw [h, fge_none_right]

theorem sub_breadth_max_none (ai : Ai T A C) (root : Node T A) (depth : ℕ)
    (ctx : C) (count : ℕ) (h : root.max = none) :
    (ai.sub_breadth root depth ctx count).1.max = none := by
  rw [Ai.sub_breadth]
  exact breadthLoop_max_none ai root.data depth _ _ ctx count (by simp [h])

theorem initNode_data (ai : Ai T A C) (root : Node T A) (depth : ℕ) (ctx : C) :
    (initNode ai root depth ctx).data = root.data := by
  rw [initNode]
  by_cases h : root.max.isNone
  · simp [h]
  · simp [h]

theorem initNode_children (ai : Ai T A C) (root : Node T A) (depth : ℕ)
    (ctx : C) : (initNode ai root depth ctx).children = root.children := by
  rw [initNode]
  by_cases h : root.max.isNone
  · simp [h]
  · simp [h]

theorem initNode_max_isSome (ai : Ai T A C) (root : Node T A) (depth : ℕ)
    (ctx : C) : (initNode ai root depth ctx).max.isSome := by
  rw [initNode]
  rcases hm : root.max with _ | q
  · simp [hm]
  · simp [hm]

theorem initNode_max_of_none (ai : Ai T A C) (root : Node T A) (depth : ℕ)
    (ctx : C) (h : root.max = none) :
    (initNode ai root depth ctx).max =
      some (ai.utility_with_settings root.data depth ctx) := by
  simp [initNode, h]

theorem initNode_max_of_some (ai : Ai T A C) (root : Node T A) (depth : ℕ)
    (ctx : C) (q : ℚ) (h : root.max = some q) :
    (initNode ai root depth ctx).max = some q := by
  simp [initNode, h]

theorem fullGo_zero (ai : Ai T A C) (root : Node T A) (depth : ℕ) (ctx : C)
    (count : ℕ) :
    fullGo ai 0 root depth ctx count =
      ai.sub_breadth (initNode ai root depth ctx) depth ctx count := rfl

theorem fullGo_succ (ai : Ai T A C) (fuel : ℕ) (root : Node T A) (depth : ℕ)
    (ctx : C) (count : ℕ) :
    fullGo ai (fuel + 1) root depth ctx count =
      (let r := ai.sub_breadth (initNode ai root depth ctx) depth ctx count
       if ai.settings.max_depth ≤ depth then r
       else if ai.memory_exceeded r.2.2 then r
       else
         let s := fullKids ai (fun ch c n => fullGo ai fuel ch (depth + 1) c n)
           r.1.data r.1.children r.2.1 r.2.2 r.1.max
         (Node.mk s.2.2.2 r.1.data s.1, s.2.1, s.2.2.1)) := rfl

theorem greedyGo_zero (ai : Ai T A C) (root : Node T A) (depth : ℕ) (ctx : C)
    (count : ℕ) :
    greedyGo ai 0 root depth ctx count =
      ai.sub_breadth (initNode ai root depth ctx) depth ctx count := rfl

theorem greedyGo_succ (ai : Ai T A C) (fuel : ℕ) (root : Node T A) (depth : ℕ)
    (ctx : C) (count : ℕ) :
    greedyGo ai (fuel + 1) root depth ctx count =
      (let r := ai.sub_breadth (initNode ai root depth ctx) depth ctx count
       if ai.settings.max_depth ≤ depth then r
       else if ai.memory_exceeded r.2.2 then r
       else
         match r.1.optimal with
         | none => r
         | some i =>
           match r.1.children[i]? with
           | none => r
           | some (a, ch) =>
             let count₁ := if ai.settings.greed_elim && ai.settings.analysis then
                 r.2.2 - (r.1.children.length - 1) else r.2.2
             let kids₁ := if ai.settings.greed_elim then [(a, ch)]
               else r.1.children
             let i₁ := if ai.settings.greed_elim then 0 else i
             match ai.execute r.1.data a r.2.1 with
             | (some _, ctx₁) =>
               let g := greedyGo ai fuel ch (depth + 1) ctx₁ count₁
               let ctx₂ := ai.undo g.1.data g.2.1
               let m₁ := if fgt g.1.max r.1.max then g.1.max else r.1.max
               (Node.mk m₁ r.1.data (kids₁.set i₁ (a, g.1)), ctx₂, g.2.2)
             | (none, ctx₁) =>
               (Node.mk r.1.max r.1.data kids₁, ctx₁, count₁)) := rfl

theorem breadthLoop_max_mono (ai : Ai T A C) (rdata : T) (depth : ℕ) :
    ∀ (acts : List A) (root : Node T A) (ctx : C) (count : ℕ) (q : ℚ),
      root.max = some q →
      ∃ q₁, q ≤ q₁ ∧
        (breadthLoop ai rdata depth acts (root, ctx, count)).1.max = some q₁ := by
  intro acts
  induction acts with
  | nil =>
    intro root ctx count q h
    exact ⟨q, le_refl q, by simpa [breadthLoop] using h⟩
  | cons a acts ih =>
    intro root ctx count q h
    simp only [breadthLoop]
    rcases hx : ai.execute rdata a ctx with ⟨od, c₁⟩
    cases od with
    | some d =>
      dsimp only
      rw [fgt_if_eq_fmax root (ai.utility_with_settings d (depth + 1) c₁)]
      simp only [Node.max_mk, Node.data_mk, Node.children_mk]
      rw [h, fmax_some_some]
      obtain ⟨q₁, hle, heq⟩ := ih
        (Node.mk (some (Max.max q (ai.utility_with_settings d (depth + 1) c₁)))
          root.data (root.children ++
            [(a, Node.mk (some (ai.utility_with_settings d (depth + 1) c₁)) d [])]))
        (ai.undo d c₁)
        (if ai.settings.analysis then count + 1 else count)
        (Max.max q (ai.utility_with_settings d (depth + 1) c₁)) rfl
      exact ⟨q₁, le_trans (le_max_left _ _) hle, heq⟩
    | none =>
      dsimp only
      exact ih root c₁ count q h

theorem sub_breadth_max_mono (ai : Ai T A C) (root : Node T A) (depth : ℕ)
    (ctx : C) (count : ℕ) (q : ℚ) (h : root.max = some q) :
    ∃ q₁, q ≤ q₁ ∧ (ai.sub_breadth root depth ctx count).1.max = some q₁ := by
  rw [Ai.sub_breadth]
  exact breadthLoop_max_mono ai root.data depth _ _ ctx count q (by simp [h])

theorem fullKids_frame (ai : Ai T A C) (hu : UndoExact ai) {rdata : T}
    (go : Node T A → C → ℕ → Node T A × C × ℕ)
    (hgo : ∀ ch c n, (go ch c n).2.1 = c ∧ (go ch c n).1.data = ch.data) :
    ∀ (l : List (A × Node T A)) (ctx : C) (count : ℕ) (m : Option ℚ),
      (∀ p ∈ l, ∃ c₁, ai.execute rdata p.1 ctx = (some p.2.data, c₁)) →
      (fullKids ai go rdata l ctx count m).2.1 = ctx := by
  intro l
  induction l with
  | nil => intro ctx count m _; rfl
  | cons p l ih =>
    intro ctx count m hl
    obtain ⟨c₁, hx⟩ := hl p (by simp)
    rcases p with ⟨a, ch⟩
    simp only [fullKids]
    rw [hx]
    dsimp only
    rw [(hgo ch c₁ count).2, (hgo ch c₁ count).1]
    rw [hu rdata a ctx ch.data c₁ hx]
    exact ih ctx _ _ (fun p hp => hl p (List.mem_cons_of_mem _ hp))

theorem fullGo_frame (ai : Ai T A C) (hu : UndoExact ai) (hf : FailKeepsCtx ai) :
    ∀ (fuel : ℕ) (root : Node T A) (depth : ℕ) (ctx : C) (count : ℕ),
      (fullGo ai fuel root depth ctx count).2.1 = ctx ∧
      (fullGo ai fuel root depth ctx count).1.data = root.data := by
  intro fuel
  induction fuel with
  | zero =>
    intro root depth ctx count
    rw [fullGo_zero, sub_breadth_spec ai hu hf]
    simp [initNode_data]
  | succ fuel ih =>
    intro root depth ctx count
    rw [fullGo_succ, sub_breadth_spec ai hu hf]
    simp only [initNode_data]
    by_cases hd : ai.settings.max_depth ≤ depth
    · simp [hd]
    · simp only [hd, if_false]
      by_cases hm : ai.memory_exceeded (count +
        if ai.settings.analysis = true then
          (kidsOf ai root.data depth ctx (ai.actions root.data ctx)).length
        else 0)
      · simp [hm]
      · simp only [hm, Bool.false_eq_true, if_false]
        constructor
        · apply fullKids_frame ai hu _
            (fun ch c n => ⟨(ih ch (depth + 1) c n).1, (ih ch (depth + 1) c n).2⟩)
          intro p hp
          obtain ⟨c₁, hx, _, _⟩ := kidsOf_mem ai hp
          exact ⟨c₁, hx⟩
        · simp

theorem getElem?_mem_list {α : Type} :
    ∀ (l : List α) (i : ℕ) (x : α), l[i]? = some x → x ∈ l := by
  intro l
  induction l with
  | nil => intro i x h; simp at h
  | cons y l ih =>
    intro i x h
    cases i with
    | zero =>
      simp at h
      rw [h]
      simp
    | succ i =>
      simp at h
      exact List.mem_cons_of_mem _ (ih i x h)

theorem greedyGo_frame (ai : Ai T A C) (hu : UndoExact ai)
    (hf : FailKeepsCtx ai) :
    ∀ (fuel : ℕ) (root : Node T A) (depth : ℕ) (ctx : C) (count : ℕ),
      (greedyGo ai fuel root depth ctx count).2.1 = ctx ∧
      (greedyGo ai fuel root depth ctx count).1.data = root.data := by
  intro fuel
  induction fuel with
  | zero =>
    intro root depth ctx count
    rw [greedyGo_zero, sub_breadth_spec ai hu hf]
    simp [initNode_data]
  | succ fuel ih =>
    intro root depth ctx count
    rw [greedyGo_succ, sub_breadth_spec ai hu hf]
    simp only [initNode_data]
    by_cases hd : ai.settings.max_depth ≤ depth
    · simp [hd]
    · simp only [hd, if_false]
      by_cases hm : ai.memory_exceeded (count +
        if ai.settings.analysis = true then
          (kidsOf ai root.data depth ctx (ai.actions root.data ctx)).length
        else 0)
      · simp [hm]
      · simp only [hm, Bool.false_eq_true, if_false]
        rcases hopt : (Node.mk
            (foldMaxKids (initNode ai root depth ctx).max
              (kidsOf ai root.data depth ctx (ai.actions root.data ctx)))
            root.data
            (kidsOf ai root.data depth ctx (ai.actions root.data ctx))).optimal
          with _ | i
        · simp
        · obtain ⟨hlt, ⟨p, hget, hge⟩, hfirst⟩ := optimal_some_spec _ i hopt
          simp only [Node.children_mk] at hget
          rcases p with ⟨a, ch⟩
          obtain ⟨c₁, hx, hmax, hch⟩ :=
            kidsOf_mem ai (getElem?_mem_list _ i _ hget)
          dsimp only at hx hmax hch
          simp only [Node.children_mk, Node.data_mk, Node.max_mk]
          rw [hget]
          dsimp only
          rw [hx]
          dsimp only
          rw [(ih ch (depth + 1) c₁ _).2, (ih ch (depth + 1) c₁ _).1]
          rw [hu root.data a ctx ch.data c₁ hx]
          simp

theorem nodeCount_mk (m : Option ℚ) (d : T) (c : List (A × Node T A)) :
    nodeCount (Node.mk m d c) = 1 + nodeCountKids c := rfl

theorem nodeCountKids_of_leaves :
    ∀ (l : List (A × Node T A)), (∀ p ∈ l, p.2.children = []) →
      nodeCountKids l = l.length := by
  intro l
  induction l with
  | nil => intro _; rfl
  | cons p l ih =>
    intro h
    have hp := h p (by simp)
    rcases p with ⟨a, ch⟩
    cases ch with
    | mk m d c =>
      dsimp only at hp
      simp only [Node.children_mk] at hp
      subst hp
      simp only [nodeCountKids, nodeCount_mk, List.length_cons]
      rw [ih (fun p hp => h p (List.mem_cons_of_mem _ hp))]
      simp [nodeCountKids]
      omega

theorem prunedShape_leaf (n : Node T A) (h : n.children = []) :
    prunedShape n = true := by
  cases n with
  | mk m d c =>
    simp only [Node.children_mk] at h
    subst h
    rfl

theorem prunedShapeKids_of_leaves :
    ∀ (l : List (A × Node T A)), (∀ p ∈ l, p.2.children = []) →
      prunedShapeKids l = true := by
  intro l
  induction l with
  | nil => intro _; rfl
  | cons p l ih =>
    intro h
    simp only [prunedShapeKids, Bool.and_eq_true]
    exact ⟨prunedShape_leaf _ (h p (by simp)),
      ih (fun p hp => h p (List.mem_cons_of_mem _ hp))⟩

theorem prunedShape_mk_of_leaves (m : Option ℚ) (d : T)
    (l : List (A × Node T A)) (h : ∀ p ∈ l, p.2.children = []) :
    prunedShape (Node.mk m d l) = true := by
  simp only [prunedShape, Bool.and_eq_true, Bool.or_eq_true]
  refine ⟨Or.inr ?_, prunedShapeKids_of_leaves l h⟩
  rw [List.all_eq_true]
  intro p hp
  simp [h p hp]

theorem nodeCountKids_nil : nodeCountKids ([] : List (A × Node T A)) = 0 := rfl

theorem nodeCountKids_cons (p : A × Node T A) (l : List (A × Node T A)) :
    nodeCountKids (p :: l) = nodeCount p.2 + nodeCountKids l := rfl

theorem nodeCount_leaf (n : Node T A) (h : n.children = []) : nodeCount n = 1 := by
  cases n with
  | mk m d c =>
    simp only [Node.children_mk] at h
    subst h
    rfl

theorem greedyGo_count (ai : Ai T A C) (han : ai.settings.analysis = true)
    (hgl : ai.settings.greed_elim = true) :
    ∀ (fuel : ℕ) (root : Node T A) (depth : ℕ) (ctx : C) (count : ℕ),
      (greedyGo ai fuel root depth ctx count).2.2 + 1 =
        count + nodeCount (greedyGo ai fuel root depth ctx count).1 := by
  have hcond : (ai.settings.greed_elim && ai.settings.analysis) = true := by
    rw [hgl, han]
    rfl
  intro fuel
  induction fuel with
  | zero =>
    intro root depth ctx count
    rw [greedyGo_zero]
    obtain ⟨M, news, ctx₂, heq, hleaf⟩ :=
      sub_breadth_general ai (initNode ai root depth ctx) depth ctx count
    rw [heq, han]
    dsimp only
    rw [nodeCount_mk, nodeCountKids_of_leaves news hleaf]
    simp
    omega
  | succ fuel ih =>
    intro root depth ctx count
    rw [greedyGo_succ]
    obtain ⟨M, news, ctx₂, heq, hleaf⟩ :=
      sub_breadth_general ai (initNode ai root depth ctx) depth ctx count
    rw [heq, han]
    dsimp only
    simp only [if_true]
    by_cases hd : ai.settings.max_depth ≤ depth
    · rw [if_pos hd]
      dsimp only
      rw [nodeCount_mk, nodeCountKids_of_leaves news hleaf]
      omega
    · rw [if_neg hd]
      by_cases hm : ai.memory_exceeded (count + news.length) = true
      · rw [if_pos hm]
        dsimp only
        rw [nodeCount_mk, nodeCountKids_of_leaves news hleaf]
        omega
      · rw [if_neg hm]
        rcases hopt : (Node.mk M (initNode ai root depth ctx).data news).optimal
          with _ | i
        · dsimp only
          rw [nodeCount_mk, nodeCountKids_of_leaves news hleaf]
          omega
        · obtain ⟨hlt, ⟨p, hget, hp_ge⟩, hfirst⟩ := optimal_some_spec _ i hopt
          simp only [Node.children_mk] at hget hlt
          rcases p with ⟨a, ch⟩
          simp only [Node.children_mk, Node.data_mk, Node.max_mk]
          rw [hget]
          dsimp only
          have hcond2 : (ai.settings.greed_elim && true) = true := by
            simp [hgl]
          simp only [if_pos hcond2, if_pos hgl]
          have hch : ch.children = [] := hleaf _ (getElem?_mem_list _ i _ hget)
          have hlen : 1 ≤ news.length := by omega
          rcases hx : ai.execute (initNode ai root depth ctx).data a ctx₂
            with ⟨od, c₁⟩
          cases od with
          | some d =>
            dsimp only
            rw [List.set_cons_zero]
            have hg := ih ch (depth + 1) c₁
              (count + news.length - (news.length - 1))
            rw [nodeCount_mk, nodeCountKids_cons, nodeCountKids_nil]
            dsimp only
            omega
          | none =>
            dsimp only
            rw [nodeCount_mk, nodeCountKids_cons, nodeCountKids_nil]
            dsimp only
            rw [nodeCount_leaf ch hch]
            omega

theorem greedyGo_shape (ai : Ai T A C) (hgl : ai.settings.greed_elim = true) :
    ∀ (fuel : ℕ) (root : Node T A) (depth : ℕ) (ctx : C) (count : ℕ),
      prunedShape (greedyGo ai fuel root depth ctx count).1 = true := by
  intro fuel
  induction fuel with
  | zero =>
    intro root depth ctx count
    rw [greedyGo_zero]
    obtain ⟨M, news, ctx₂, heq, hleaf⟩ :=
      sub_breadth_general ai (initNode ai root depth ctx) depth ctx count
    rw [heq]
    exact prunedShape_mk_of_leaves _ _ _ hleaf
  | succ fuel ih =>
    intro root depth ctx count
    rw [greedyGo_succ]
    obtain ⟨M, news, ctx₂, heq, hleaf⟩ :=
      sub_breadth_general ai (initNode ai root depth ctx) depth ctx count
    rw [heq]
    dsimp only
    by_cases hd : ai.settings.max_depth ≤ depth
    · rw [if_pos hd]
      exact prunedShape_mk_of_leaves _ _ _ hleaf
    · rw [if_neg hd]
      by_cases hm : ai.memory_exceeded (count +
        if ai.settings.analysis = true then news.length else 0) = true
      · rw [if_pos hm]
        exact prunedShape_mk_of_leaves _ _ _ hleaf
      · rw [if_neg hm]
        rcases hopt : (Node.mk M (initNode ai root depth ctx).data news).optimal
          with _ | i
        · exact prunedShape_mk_of_leaves _ _ _ hleaf
        · obtain ⟨hlt, ⟨p, hget, hp_ge⟩, hfirst⟩ := optimal_some_spec _ i hopt
          simp only [Node.children_mk] at hget hlt
          rcases p with ⟨a, ch⟩
          simp only [Node.children_mk, Node.data_mk, Node.max_mk]
          rw [hget]
          dsimp only
          simp only [if_pos hgl]
          have hch : ch.children = [] := hleaf _ (getElem?_mem_list _ i _ hget)
          rcases hx : ai.execute (initNode ai root depth ctx).data a ctx₂
            with ⟨od, c₁⟩
          cases od with
          | some d =>
            dsimp only
            rw [List.set_cons_zero]
            simp only [prunedShape, Bool.and_eq_true, Bool.or_eq_true]
            refine ⟨Or.inl (by simp), ?_⟩
            simp only [prunedShapeKids, Bool.and_eq_true]
            exact ⟨ih ch (depth + 1) c₁ _, trivial⟩
          | none =>
            dsimp only
            apply prunedShape_mk_of_leaves
            intro p hp
            simp only [List.mem_singleton] at hp
            rw [hp]
            exact hch

theorem memory_exceeded_of_no_limit (ai : Ai T A C)
    (hmm : ai.settings.max_mib = none) (n : ℕ) :
    ai.memory_exceeded n = false := by
  rw [Ai.memory_exceeded, hmm]
  by_cases ha : ai.settings.analysis
  · simp [ha]
  · simp [ha]

theorem breadthLoop_children_len (ai : Ai T A C) (he : ExecTotal ai)
    (rdata : T) (depth : ℕ) :
    ∀ (acts : List A) (root : Node T A) (ctx : C) (count : ℕ),
      (breadthLoop ai rdata depth acts (root, ctx, count)).1.children.length =
        root.children.length + acts.length := by
  intro acts
  induction acts with
  | nil => intro root ctx count; simp [breadthLoop]
  | cons a acts ih =>
    intro root ctx count
    simp only [breadthLoop]
    rcases hx : ai.execute rdata a ctx with ⟨od, c₁⟩
    cases od with
    | some d =>
      dsimp only
      rw [fgt_if_eq_fmax root (ai.utility_with_settings d (depth + 1) c₁)]
      simp only [Node.max_mk, Node.data_mk, Node.children_mk]
      rw [ih]
      simp
      omega
    | none =>
      have hs := he rdata a ctx
      rw [hx] at hs
      simp at hs

theorem sub_breadth_children_len (ai : Ai T A C) (he : ExecTotal ai)
    (root : Node T A) (depth : ℕ) (ctx : C) (count : ℕ) :
    (ai.sub_breadth root depth ctx count).1.children.length =
      (ai.actions root.data ctx).length := by
  rw [Ai.sub_breadth]
  rw [breadthLoop_children_len ai he root.data depth]
  simp

theorem fullKids_count (ai : Ai T A C) (he : ExecTotal ai) {rdata : T}
    (go : Node T A → C → ℕ → Node T A × C × ℕ) (K : ℕ)
    (hgo : ∀ ch c n, (go ch c n).2.2 = n + K) :
    ∀ (l : List (A × Node T A)) (ctx : C) (count : ℕ) (m : Option ℚ),
      (fullKids ai go rdata l ctx count m).2.2.1 = count + l.length * K := by
  intro l
  induction l with
  | nil => intro ctx count m; simp [fullKids]
  | cons p l ih =>
    intro ctx count m
    rcases p with ⟨a, ch⟩
    simp only [fullKids]
    rcases hx : ai.execute rdata a ctx with ⟨od, c₁⟩
    cases od with
    | some d =>
      dsimp only
      rw [ih, hgo ch c₁ count]
      rw [List.length_cons]
      ring
    | none =>
      have hs := he rdata a ctx
      rw [hx] at hs
      simp at hs

theorem fullGo_count (ai : Ai T A C) (he : ExecTotal ai) (b : ℕ)
    (hb : ∀ t c, (ai.actions t c).length = b)
    (han : ai.settings.analysis = true)
    (hmm : ai.settings.max_mib = none) :
    ∀ (fuel depth : ℕ), ai.settings.max_depth + 1 - depth = fuel →
      depth ≤ ai.settings.max_depth →
      ∀ (root : Node T A) (ctx : C) (count : ℕ),
        (fullGo ai fuel root depth ctx count).2.2 = count + geomS b fuel := by
  intro fuel
  induction fuel with
  | zero =>
    intro depth hfd hdep
    omega
  | succ fuel ih =>
    intro depth hfd hdep root ctx count
    rw [fullGo_succ]
    obtain ⟨M, news, ctx₂, heq, hleaf⟩ :=
      sub_breadth_general ai (initNode ai root depth ctx) depth ctx count
    have hlen : news.length = b := by
      have h1 := sub_breadth_children_len ai he (initNode ai root depth ctx)
        depth ctx count
      rw [heq] at h1
      simp only [Node.children_mk] at h1
      rw [h1, initNode_data, hb]
    rw [heq, han]
    dsimp only
    simp only [if_true]
    by_cases hd : ai.settings.max_depth ≤ depth
    · rw [if_pos hd]
      have hfd0 : fuel = 0 := by omega
      subst hfd0
      rw [hlen]
      simp [geomS]
    · rw [if_neg hd]
      rw [memory_exceeded_of_no_limit ai hmm]
      simp only [Bool.false_eq_true, if_false]
      rw [fullKids_count ai he _ (geomS b fuel)
        (fun ch c n => ih (depth + 1) (by omega) (by omega) ch c n)]
      simp only [Node.children_mk]
      rw [hlen, geomS]
      ring

theorem full_count (ai : Ai T A C) (he : ExecTotal ai) (b : ℕ)
    (hb : ∀ t c, (ai.actions t c).length = b)
    (han : ai.settings.analysis = true)
    (hmm : ai.settings.max_mib = none)
    (root : Node T A) (ctx : C) (count : ℕ) :
    (ai.full root 0 ctx count).2.2 =
      count + geomS b (ai.settings.max_depth + 1) := by
  rw [Ai.full]
  exact fullGo_count ai he b hb han hmm (ai.settings.max_depth + 1 - 0) 0
    rfl (by omega) root ctx count

theorem geomS_eq_sum (b : ℕ) :
    ∀ m, geomS b m = ∑ k ∈ Finset.range m, b ^ (k + 1) := by
  intro m
  induction m with
  | zero => rfl
  | succ m ih =>
    rw [geomS, ih, Finset.sum_range_succ', Finset.mul_sum]
    have hpow : ∀ i ∈ Finset.range m, b * b ^ (i + 1) = b ^ (i + 1 + 1) :=
      fun i _ => by ring
    rw [Finset.sum_congr rfl hpow]
    simp
    omega

theorem initNode_max_fresh (ai : Ai T A C) (root : Node T A) (depth : ℕ)
    (ctx : C)
    (h : root.max = none ∨
      root.max = some (ai.utility_with_settings root.data depth ctx)) :
    (initNode ai root depth ctx).max =
      some (ai.utility_with_settings root.data depth ctx) := by
  rcases h with h | h
  · exact initNode_max_of_none ai root depth ctx h
  · exact initNode_max_of_some ai root depth ctx _ h

theorem evalInv_mk (ai : Ai T A C) (m : Option ℚ) (d : T)
    (c : List (A × Node T A)) (depth : ℕ) (ctx : C) :
    evalInv ai (Node.mk m d c) depth ctx =
      (decide (m = foldMaxKids
        (some (ai.utility_with_settings d depth ctx)) c)
       && evalInvKids ai d c depth ctx) := rfl

theorem evalInvKids_nil (ai : Ai T A C) (rdata : T) (depth : ℕ) (ctx : C) :
    evalInvKids ai rdata [] depth ctx = true := rfl

theorem evalInvKids_cons (ai : Ai T A C) (rdata : T) (a : A) (ch : Node T A)
    (rest : List (A × Node T A)) (depth : ℕ) (ctx : C) :
    evalInvKids ai rdata ((a, ch) :: rest) depth ctx =
      ((match ai.execute rdata a ctx with
        | (some _, ctx₁) => evalInv ai ch (depth + 1) ctx₁
        | (none, _) => true)
       && evalInvKids ai rdata rest depth ctx) := rfl

theorem evalInv_leaf (ai : Ai T A C) (ch : Node T A) (depth : ℕ) (ctx : C)
    (hch : ch.children = [])
    (hmax : ch.max = some (ai.utility_with_settings ch.data depth ctx)) :
    evalInv ai ch depth ctx = true := by
  cases ch with
  | mk m d c =>
    simp only [Node.children_mk] at hch
    simp only [Node.max_mk, Node.data_mk] at hmax
    subst hch
    rw [evalInv_mk]
    simp [foldMaxKids_nil, hmax, evalInvKids_nil]

theorem kidsOk_kidsOf (ai : Ai T A C) (rdata : T) (depth : ℕ) (ctx : C)
    (acts : List A) : KidsOk ai rdata depth ctx (kidsOf ai rdata depth ctx acts) :=
  fun _ hp => kidsOf_mem ai hp

theorem evalInvKids_of_kidsOk (ai : Ai T A C) {rdata : T} {depth : ℕ} {ctx : C} :
    ∀ (l : List (A × Node T A)), KidsOk ai rdata depth ctx l →
      evalInvKids ai rdata l depth ctx = true := by
  intro l
  induction l with
  | nil => intro _; rfl
  | cons p l ih =>
    intro hl
    obtain ⟨c₁, hx, hmax, hch⟩ := hl p (by simp)
    rcases p with ⟨a, ch⟩
    rw [evalInvKids_cons, hx]
    dsimp only at hx hmax hch ⊢
    simp only [Bool.and_eq_true]
    exact ⟨evalInv_leaf ai ch (depth + 1) c₁ hch hmax,
      ih (fun p hp => hl p (List.mem_cons_of_mem _ hp))⟩

theorem fgt_some_right_iff (u : Option ℚ) (q : ℚ) :
    fgt u (some q) = true ↔ ∃ y, u = some y ∧ q < y := by
  cases u with
  | none => simp [fgt]
  | some y => simp [fgt]

theorem fullKids_m_mono (ai : Ai T A C) {rdata : T}
    (go : Node T A → C → ℕ → Node T A × C × ℕ) :
    ∀ (l : List (A × Node T A)) (ctx : C) (count : ℕ) (m : Option ℚ) (q : ℚ),
      m = some q →
      ∃ q₁, q ≤ q₁ ∧ (fullKids ai go rdata l ctx count m).2.2.2 = some q₁ := by
  intro l
  induction l with
  | nil =>
    intro ctx count m q hm
    exact ⟨q, le_refl q, by simpa [fullKids] using hm⟩
  | cons p l ih =>
    intro ctx count m q hm
    rcases p with ⟨a, ch⟩
    simp only [fullKids]
    rcases hx : ai.execute rdata a ctx with ⟨od, c₁⟩
    cases od with
    | some d =>
      dsimp only
      by_cases hfg : fgt (go ch c₁ count).1.max m = true
      · rw [if_pos hfg]
        rw [hm] at hfg
        obtain ⟨y, hy, hqy⟩ := (fgt_some_right_iff _ q).mp hfg
        obtain ⟨q₁, hle, heq⟩ := ih _ _ _ y hy
        exact ⟨q₁, le_trans hqy.le hle, heq⟩
      · rw [if_neg hfg]
        exact ih _ _ _ q hm
    | none =>
      dsimp only
      exact ih _ _ _ q hm

theorem fullGo_max_mono (ai : Ai T A C) :
    ∀ (fuel : ℕ) (root : Node T A) (depth : ℕ) (ctx : C) (count : ℕ) (q : ℚ),
      root.max = some q →
      ∃ q₁, q ≤ q₁ ∧ (fullGo ai fuel root depth ctx count).1.max = some q₁ := by
  intro fuel
  cases fuel with
  | zero =>
    intro root depth ctx count q hq
    rw [fullGo_zero]
    exact sub_breadth_max_mono ai (initNode ai root depth ctx) depth ctx count q
      (initNode_max_of_some ai root depth ctx q hq)
  | succ fuel =>
    intro root depth ctx count q hq
    rw [fullGo_succ]
    obtain ⟨q₀, hq0, hbm⟩ :=
      sub_breadth_max_mono ai (initNode ai root depth ctx) depth ctx count q
        (initNode_max_of_some ai root depth ctx q hq)
    dsimp only
    by_cases hd : ai.settings.max_depth ≤ depth
    · rw [if_pos hd]
      exact ⟨q₀, hq0, hbm⟩
    · rw [if_neg hd]
      by_cases hm : ai.memory_exceeded
        (ai.sub_breadth (initNode ai root depth ctx) depth ctx count).2.2 = true
      · rw [if_pos hm]
        exact ⟨q₀, hq0, hbm⟩
      · rw [if_neg hm]
        obtain ⟨q₁, hq1, heq⟩ := fullKids_m_mono ai
          (fun ch c n => fullGo ai fuel ch (depth + 1) c n)
          (ai.sub_breadth (initNode ai root depth ctx) depth ctx count).1.children
          (ai.sub_breadth (initNode ai root depth ctx) depth ctx count).2.1
          (ai.sub_breadth (initNode ai root depth ctx) depth ctx count).2.2
          (ai.sub_breadth (initNode ai root depth ctx) depth ctx count).1.max
          q₀ hbm
        exact ⟨q₁, le_trans hq0 hq1, heq⟩

theorem fullKids_inv (ai : Ai T A C) (hu : UndoExact ai) {rdata : T}
    {depth : ℕ} {ctx : C} (go : Node T A → C → ℕ → Node T A × C × ℕ)
    (hgo : ∀ (a : A) (ch : Node T A) (c₁ : C) (n : ℕ),
      ai.execute rdata a ctx = (some ch.data, c₁) →
      ch.children = [] →
      ch.max = some (ai.utility_with_settings ch.data (depth + 1) c₁) →
      evalInv ai (go ch c₁ n).1 (depth + 1) c₁ = true ∧
      (go ch c₁ n).2.1 = c₁ ∧ (go ch c₁ n).1.data = ch.data ∧
      fge (go ch c₁ n).1.max ch.max = true ∧ (go ch c₁ n).1.max.isSome) :
    ∀ (l : List (A × Node T A)), KidsOk ai rdata depth ctx l →
      ∀ (count : ℕ) (m : Option ℚ),
        evalInvKids ai rdata (fullKids ai go rdata l ctx count m).1 depth ctx
          = true ∧
        (fullKids ai go rdata l ctx count m).2.2.2 =
          foldMaxKids m (fullKids ai go rdata l ctx count m).1 ∧
        List.Forall₂ (fun p q => fge q.2.max p.2.max = true ∧ q.2.max.isSome) l
          (fullKids ai go rdata l ctx count m).1 := by
  intro l
  induction l with
  | nil =>
    intro _ count m
    exact ⟨rfl, rfl, List.Forall₂.nil⟩
  | cons p l ih =>
    intro hl count m
    obtain ⟨c₁, hx, hmax, hch⟩ := hl p (by simp)
    rcases p with ⟨a, ch⟩
    dsimp only at hx hmax hch
    obtain ⟨hinv, hctx, hdata, hge, hsome⟩ := hgo a ch c₁ count hx hch hmax
    simp only [fullKids]
    rw [hx]
    dsimp only
    rw [hdata, hctx, hu rdata a ctx ch.data c₁ hx]
    obtain ⟨ih1, ih2, ih3⟩ :=
      ih (fun p hp => hl p (List.mem_cons_of_mem _ hp))
        (go ch c₁ count).2.2
        (if fgt (go ch c₁ count).1.max m = true then (go ch c₁ count).1.max
         else m)
    refine ⟨?_, ?_, ?_⟩
    · rw [evalInvKids_cons, hx]
      simp only [Bool.and_eq_true]
      exact ⟨hinv, ih1⟩
    · rw [ih2, foldMaxKids_cons]
      rfl
    · exact List.Forall₂.cons ⟨hge, hsome⟩ ih3

theorem fullGo_inv (ai : Ai T A C) (hu : UndoExact ai) (hf : FailKeepsCtx ai) :
    ∀ (fuel : ℕ) (root : Node T A) (depth : ℕ) (ctx : C) (count : ℕ),
      root.children = [] →
      (root.max = none ∨
        root.max = some (ai.utility_with_settings root.data depth ctx)) →
      evalInv ai (fullGo ai fuel root depth ctx count).1 depth ctx = true := by
  intro fuel
  induction fuel with
  | zero =>
    intro root depth ctx count hchil hfresh
    rw [fullGo_zero, sub_breadth_spec ai hu hf]
    dsimp only
    rw [evalInv_mk, initNode_max_fresh ai root depth ctx hfresh]
    simp only [decide_eq_true_eq, Bool.and_eq_true, initNode_data]
    exact ⟨by trivial, evalInvKids_of_kidsOk ai _ (kidsOk_kidsOf ai root.data depth ctx _)⟩
  | succ fuel ih =>
    intro root depth ctx count hchil hfresh
    rw [fullGo_succ, sub_breadth_spec ai hu hf]
    simp only [initNode_data, initNode_max_fresh ai root depth ctx hfresh]
    by_cases hd : ai.settings.max_depth ≤ depth
    · rw [if_pos hd]
      rw [evalInv_mk]
      simp only [decide_eq_true_eq, Bool.and_eq_true]
      exact ⟨by trivial, evalInvKids_of_kidsOk ai _ (kidsOk_kidsOf ai root.data depth ctx _)⟩
    · rw [if_neg hd]
      by_cases hm : ai.memory_exceeded (count +
        if ai.settings.analysis = true then
          (kidsOf ai root.data depth ctx (ai.actions root.data ctx)).length
        else 0) = true
      · rw [if_pos hm]
        rw [evalInv_mk]
        simp only [decide_eq_true_eq, Bool.and_eq_true]
        exact ⟨by trivial, evalInvKids_of_kidsOk ai _ (kidsOk_kidsOf ai root.data depth ctx _)⟩
      · rw [if_neg hm]
        simp only [Node.max_mk, Node.data_mk, Node.children_mk]
        have hgo : ∀ (a : A) (ch : Node T A) (c₁ : C) (n : ℕ),
            ai.execute root.data a ctx = (some ch.data, c₁) →
            ch.children = [] →
            ch.max = some (ai.utility_with_settings ch.data (depth + 1) c₁) →
            evalInv ai (fullGo ai fuel ch (depth + 1) c₁ n).1 (depth + 1) c₁
              = true ∧
            (fullGo ai fuel ch (depth + 1) c₁ n).2.1 = c₁ ∧
            (fullGo ai fuel ch (depth + 1) c₁ n).1.data = ch.data ∧
            fge (fullGo ai fuel ch (depth + 1) c₁ n).1.max ch.max = true ∧
            (fullGo ai fuel ch (depth + 1) c₁ n).1.max.isSome := by
          intro a ch c₁ n hx hch hmax
          obtain ⟨q₁, hle, heq⟩ := fullGo_max_mono ai fuel ch (depth + 1) c₁ n
            (ai.utility_with_settings ch.data (depth + 1) c₁) hmax
          refine ⟨ih ch (depth + 1) c₁ n hch (Or.inr hmax),
            (fullGo_frame ai hu hf fuel ch (depth + 1) c₁ n).1,
            (fullGo_frame ai hu hf fuel ch (depth + 1) c₁ n).2, ?_, ?_⟩
          · rw [heq, hmax]
            simp [fge, hle]
          · rw [heq]
            rfl
        obtain ⟨h1, h2, h3⟩ := fullKids_inv ai hu
          (fun ch c n => fullGo ai fuel ch (depth + 1) c n) hgo
          (kidsOf ai root.data depth ctx (ai.actions root.data ctx))
          (kidsOk_kidsOf ai root.data depth ctx _)
          (count + if ai.settings.analysis = true then
            (kidsOf ai root.data depth ctx (ai.actions root.data ctx)).length
            else 0)
          (foldMaxKids
            (some (ai.utility_with_settings root.data depth ctx))
            (kidsOf ai root.data depth ctx (ai.actions root.data ctx)))
        rw [evalInv_mk]
        simp only [decide_eq_true_eq, Bool.and_eq_true]
        constructor
        · rw [h2]
          exact foldMaxKids_absorb h3 _ (by simp)
        · exact h1

theorem fge_some_left_iff (y : ℚ) (v : Option ℚ) :
    fge (some y) v = true ↔ ∃ q, v = some q ∧ q ≤ y := by
  cases v with
  | none => simp [fge]
  | some q => simp [fge]

theorem foldMaxKids_mem_le :
    ∀ (l : List (A × Node T A)) (x : Option ℚ), x.isSome →
      ∀ p ∈ l, ∀ y, p.2.max = some y →
        ∀ q₀, foldMaxKids x l = some q₀ → y ≤ q₀ := by
  intro l
  induction l with
  | nil => intro x _ p hp; simp at hp
  | cons p0 l ih =>
    intro x hx p hp y hy q₀ hq
    rw [foldMaxKids_cons] at hq
    rcases List.mem_cons.mp hp with hp | hp
    · subst hp
      rcases hx0 : x with _ | x0
      · rw [hx0] at hx
        simp at hx
      · rw [hx0, hy, fmax_some_some] at hq
        obtain ⟨q₁, hle, heq⟩ := foldMaxKids_some_mono l (Max.max x0 y)
        rw [heq] at hq
        simp only [Option.some_inj] at hq
        subst hq
        exact le_trans (le_max_right x0 y) hle
    · exact ih (fmax x p0.2.max) (fmax_isSome_left _ _ hx) p hp y hy q₀ hq

theorem greedyGo_max_mono (ai : Ai T A C) :
    ∀ (fuel : ℕ) (root : Node T A) (depth : ℕ) (ctx : C) (count : ℕ) (q : ℚ),
      root.max = some q →
      ∃ q₁, q ≤ q₁ ∧ (greedyGo ai fuel root depth ctx count).1.max = some q₁ := by
  intro fuel
  cases fuel with
  | zero =>
    intro root depth ctx count q hq
    rw [greedyGo_zero]
    exact sub_breadth_max_mono ai (initNode ai root depth ctx) depth ctx count q
      (initNode_max_of_some ai root depth ctx q hq)
  | succ fuel =>
    intro root depth ctx count q hq
    rw [greedyGo_succ]
    obtain ⟨q₀, hq0, hbm⟩ :=
      sub_breadth_max_mono ai (initNode ai root depth ctx) depth ctx count q
        (initNode_max_of_some ai root depth ctx q hq)
    dsimp only
    by_cases hd : ai.settings.max_depth ≤ depth
    · rw [if_pos hd]
      exact ⟨q₀, hq0, hbm⟩
    · rw [if_neg hd]
      by_cases hm : ai.memory_exceeded
        (ai.sub_breadth (initNode ai root depth ctx) depth ctx count).2.2 = true
      · rw [if_pos hm]
        exact ⟨q₀, hq0, hbm⟩
      · rw [if_neg hm]
        rcases hopt : (ai.sub_breadth (initNode ai root depth ctx)
            depth ctx count).1.optimal with _ | i
        · exact ⟨q₀, hq0, hbm⟩
        · dsimp only
          rcases hget : (ai.sub_breadth (initNode ai root depth ctx)
              depth ctx count).1.children[i]? with _ | p
          · exact ⟨q₀, hq0, hbm⟩
          · rcases p with ⟨a, ch⟩
            dsimp only
            rcases hx : ai.execute (ai.sub_breadth (initNode ai root depth ctx)
                depth ctx count).1.data a
                (ai.sub_breadth (initNode ai root depth ctx) depth ctx count).2.1
              with ⟨od, c₁⟩
            cases od with
            | some d =>
              dsimp only
              by_cases hfg : fgt (greedyGo ai fuel ch (depth + 1) c₁
                  (if (ai.settings.greed_elim && ai.settings.analysis) = true then
                    (ai.sub_breadth (initNode ai root depth ctx) depth ctx
                      count).2.2 -
                      ((ai.sub_breadth (initNode ai root depth ctx) depth ctx
                        count).1.children.length - 1)
                  else (ai.sub_breadth (initNode ai root depth ctx) depth ctx
                    count).2.2)).1.max
                (ai.sub_breadth (initNode ai root depth ctx) depth ctx
                  count).1.max = true
              · rw [if_pos hfg]
                rw [hbm] at hfg
                obtain ⟨y, hy, hqy⟩ := (fgt_some_right_iff _ q₀).mp hfg
                exact ⟨y, le_trans hq0 hqy.le, by simpa using hy⟩
              · rw [if_neg hfg]
                exact ⟨q₀, hq0, by simpa using hbm⟩
            | none =>
              dsimp only
              exact ⟨q₀, hq0, by simpa using hbm⟩

theorem greedyGo_inv (ai : Ai T A C) (hu : UndoExact ai) (hf : FailKeepsCtx ai)
    (hgl : ai.settings.greed_elim = true) :
    ∀ (fuel : ℕ) (root : Node T A) (depth : ℕ) (ctx : C) (count : ℕ),
      root.children = [] →
      (root.max = none ∨
        root.max = some (ai.utility_with_settings root.data depth ctx)) →
      evalInv ai (greedyGo ai fuel root depth ctx count).1 depth ctx = true := by
  intro fuel
  induction fuel with
  | zero =>
    intro root depth ctx count hchil hfresh
    rw [greedyGo_zero, sub_breadth_spec ai hu hf]
    dsimp only
    rw [evalInv_mk, initNode_max_fresh ai root depth ctx hfresh]
    simp only [decide_eq_true_eq, Bool.and_eq_true, initNode_data]
    exact ⟨by trivial, evalInvKids_of_kidsOk ai _ (kidsOk_kidsOf ai root.data depth ctx _)⟩
  | succ fuel ih =>
    intro root depth ctx count hchil hfresh
    rw [greedyGo_succ, sub_breadth_spec ai hu hf]
    simp only [initNode_data, initNode_max_fresh ai root depth ctx hfresh]
    by_cases hd : ai.settings.max_depth ≤ depth
    · rw [if_pos hd]
      rw [evalInv_mk]
      simp only [decide_eq_true_eq, Bool.and_eq_true]
      exact ⟨by trivial, evalInvKids_of_kidsOk ai _ (kidsOk_kidsOf ai root.data depth ctx _)⟩
    · rw [if_neg hd]
      by_cases hm : ai.memory_exceeded (count +
        if ai.settings.analysis = true then
          (kidsOf ai root.data depth ctx (ai.actions root.data ctx)).length
        else 0) = true
      · rw [if_pos hm]
        rw [evalInv_mk]
        simp only [decide_eq_true_eq, Bool.and_eq_true]
        exact ⟨by trivial, evalInvKids_of_kidsOk ai _ (kidsOk_kidsOf ai root.data depth ctx _)⟩
      · rw [if_neg hm]
        rcases hopt : (Node.mk
            (foldMaxKids (some (ai.utility_with_settings root.data depth ctx))
              (kidsOf ai root.data depth ctx (ai.actions root.data ctx)))
            root.data
            (kidsOf ai root.data depth ctx (ai.actions root.data ctx))).optimal
          with _ | i
        · rw [evalInv_mk]
          simp only [decide_eq_true_eq, Bool.and_eq_true]
          exact ⟨by trivial, evalInvKids_of_kidsOk ai _ (kidsOk_kidsOf ai root.data depth ctx _)⟩
        · obtain ⟨hlt, ⟨p, hget, hp_ge⟩, hfirst⟩ := optimal_some_spec _ i hopt
          simp only [Node.children_mk] at hget hlt
          simp only [Node.max_mk] at hp_ge
          rcases p with ⟨a, ch⟩
          obtain ⟨c₁, hx, hmax, hch⟩ :=
            kidsOf_mem ai (getElem?_mem_list _ i _ hget)
          dsimp only at hx hmax hch hp_ge
          simp only [Node.children_mk, Node.data_mk, Node.max_mk]
          rw [hget]
          dsimp only
          simp only [if_pos hgl]
          rw [hx]
          dsimp only
          rw [List.set_cons_zero]
          obtain ⟨q₀, hM₀, hq0le⟩ := (fge_some_left_iff _ _).mp
            (by rw [← hmax]; exact hp_ge)
          have hle2 : ai.utility_with_settings ch.data (depth + 1) c₁ ≤ q₀ :=
            foldMaxKids_mem_le _ _ (by simp) _
              (getElem?_mem_list _ i _ hget) _ hmax q₀ hM₀
          have hq0 : q₀ = ai.utility_with_settings ch.data (depth + 1) c₁ :=
            le_antisymm hq0le hle2
          obtain ⟨qg, hqgle, hqg⟩ := greedyGo_max_mono ai fuel ch (depth + 1) c₁
            (if (ai.settings.greed_elim && ai.settings.analysis) = true then
              (count + if ai.settings.analysis = true then
                (kidsOf ai root.data depth ctx (ai.actions root.data ctx)).length
                else 0) -
                ((kidsOf ai root.data depth ctx (ai.actions root.data ctx)).length - 1)
            else (count + if ai.settings.analysis = true then
              (kidsOf ai root.data depth ctx (ai.actions root.data ctx)).length
              else 0))
            (ai.utility_with_settings ch.data (depth + 1) c₁) hmax
          have hu₀ : ai.utility_with_settings root.data depth ctx ≤ q₀ := by
            obtain ⟨q₁, hle, heq⟩ := foldMaxKids_some_mono
              (kidsOf ai root.data depth ctx (ai.actions root.data ctx))
              (ai.utility_with_settings root.data depth ctx)
            rw [heq] at hM₀
            simp only [Option.some_inj] at hM₀
            rw [hM₀] at hle
            exact hle
          rw [evalInv_mk, Bool.and_eq_true]
          constructor
          · rw [decide_eq_true_eq, foldMaxKids_cons, foldMaxKids_nil]
            dsimp only
            rw [hqg, hM₀, fmax_some_some]
            have hmx : Max.max (ai.utility_with_settings root.data depth ctx) qg
                = qg :=
              max_eq_right (le_trans hu₀ (le_trans hq0le hqgle))
            rw [hmx]
            by_cases hfg : fgt (some qg) (some q₀) = true
            · rw [if_pos hfg]
            · rw [if_neg hfg]
              simp only [fgt, decide_eq_true_eq] at hfg
              have : qg = q₀ := le_antisymm (not_lt.mp hfg) (hq0 ▸ hqgle)
              rw [this]
          · rw [evalInvKids_cons, hx]
            dsimp only
            rw [Bool.and_eq_true]
            exact ⟨ih ch (depth + 1) c₁ _ hch (Or.inr hmax), rfl⟩

theorem bruteFold_nil (ai : Ai T A C) (go : T → C → ℚ) (data : T) (ctx : C)
    (m : ℚ) : bruteFold ai go data ctx [] m = m := rfl

theorem bruteFold_cons_success (ai : Ai T A C) (go : T → C → ℚ) {data : T}
    {ctx : C} {a : A} {d : T} {c₁ : C} (acts : List A) (m : ℚ)
    (hx : ai.execute data a ctx = (some d, c₁)) :
    bruteFold ai go data ctx (a :: acts) m =
      bruteFold ai go data ctx acts (Max.max m (go d c₁)) := by
  simp only [bruteFold]
  rw [hx]

theorem bruteFold_init_le (ai : Ai T A C) (go : T → C → ℚ) (data : T)
    (ctx : C) : ∀ (acts : List A) (m : ℚ), m ≤ bruteFold ai go data ctx acts m := by
  intro acts
  induction acts with
  | nil => intro m; exact le_refl m
  | cons a acts ih =>
    intro m
    simp only [bruteFold]
    rcases hx : ai.execute data a ctx with ⟨od, c₁⟩
    cases od with
    | some d =>
      dsimp only
      exact le_trans (le_max_left m _) (ih _)
    | none =>
      dsimp only
      exact ih m

theorem bruteMax_ge_self (ai : Ai T A C) (fuel : ℕ) (data : T) (ctx : C)
    (depth : ℕ) :
    ai.utility_with_settings data depth ctx ≤ bruteMax ai fuel data ctx depth := by
  cases fuel with
  | zero => exact le_refl _
  | succ fuel => exact bruteFold_init_le ai _ data ctx _ _

theorem bruteFold_congr (ai : Ai T A C) (go₁ go₂ : T → C → ℚ)
    (h : ∀ d c, go₁ d c = go₂ d c) (data : T) (ctx : C) :
    ∀ (acts : List A) (m : ℚ),
      bruteFold ai go₁ data ctx acts m = bruteFold ai go₂ data ctx acts m := by
  intro acts
  induction acts with
  | nil => intro m; rfl
  | cons a acts ih =>
    intro m
    simp only [bruteFold]
    rcases hx : ai.execute data a ctx with ⟨od, c₁⟩
    cases od with
    | some d =>
      dsimp only
      rw [h d c₁]
      exact ih _
    | none =>
      dsimp only
      exact ih m

theorem foldMaxKids_bruteFold (ai : Ai T A C) (he : ExecTotal ai) (rdata : T)
    (depth : ℕ) (ctx : C) :
    ∀ (acts : List A) (x : ℚ),
      foldMaxKids (some x) (kidsOf ai rdata depth ctx acts) =
        some (bruteFold ai
          (fun d c => ai.utility_with_settings d (depth + 1) c) rdata ctx acts x) := by
  intro acts
  induction acts with
  | nil => intro x; rfl
  | cons a acts ih =>
    intro x
    rcases hx : ai.execute rdata a ctx with ⟨od, c₁⟩
    cases od with
    | none =>
      have hs := he rdata a ctx
      rw [hx] at hs
      simp at hs
    | some d =>
      rw [kidsOf_cons_success ai depth acts hx, foldMaxKids_cons]
      simp only [Node.max_mk]
      rw [fmax_some_some, ih, bruteFold_cons_success ai _ acts x hx]

theorem if_fgt_eq_fmax (m u : Option ℚ) :
    (if fgt u m = true then u else m) = fmax m u := rfl

theorem fullKids_brute (ai : Ai T A C) (hu : UndoExact ai) (he : ExecTotal ai)
    {rdata : T} {depth : ℕ} {ctx : C}
    (go : Node T A → C → ℕ → Node T A × C × ℕ) (bm : T → C → ℚ)
    (hgo : ∀ (a : A) (ch : Node T A) (c₁ : C) (n : ℕ),
      ai.execute rdata a ctx = (some ch.data, c₁) →
      ch.children = [] →
      ch.max = some (ai.utility_with_settings ch.data (depth + 1) c₁) →
      (go ch c₁ n).1.max = some (bm ch.data c₁) ∧
      (go ch c₁ n).2.1 = c₁ ∧ (go ch c₁ n).1.data = ch.data)
    (hbm : ∀ d c, ai.utility_with_settings d (depth + 1) c ≤ bm d c) :
    ∀ (acts : List A) (x : ℚ) (count : ℕ),
      (fullKids ai go rdata (kidsOf ai rdata depth ctx acts) ctx count
        (foldMaxKids (some x) (kidsOf ai rdata depth ctx acts))).2.2.2 =
      some (bruteFold ai bm rdata ctx acts x) := by
  intro acts
  induction acts with
  | nil => intro x count; rfl
  | cons a acts ih =>
    intro x count
    rcases hx : ai.execute rdata a ctx with ⟨od, c₁⟩
    cases od with
    | none =>
      have hs := he rdata a ctx
      rw [hx] at hs
      simp at hs
    | some d =>
      rw [kidsOf_cons_success ai depth acts hx]
      simp only [fullKids]
      rw [hx]
      dsimp only
      obtain ⟨hr_max, hr_ctx, hr_data⟩ := hgo a
        (Node.mk (some (ai.utility_with_settings d (depth + 1) c₁)) d []) c₁
        count hx rfl rfl
      simp only [Node.data_mk] at hr_max hr_data
      rw [foldMaxKids_cons]
      simp only [Node.max_mk]
      rw [fmax_some_some]
      rw [hr_data, hr_ctx, hu rdata a ctx d c₁ hx, hr_max]
      rw [if_fgt_eq_fmax]
      rw [foldMaxKids_fmax_swap _ _ _ (by simp) (by simp), fmax_some_some]
      rw [max_assoc, max_eq_right (hbm d c₁)]
      rw [ih (Max.max x (bm d c₁)) (go (Node.mk
        (some (ai.utility_with_settings d (depth + 1) c₁)) d []) c₁ count).2.2]
      rw [bruteFold_cons_success ai bm acts x hx]

theorem fullGo_brute (ai : Ai T A C) (hu : UndoExact ai) (he : ExecTotal ai)
    (hmm : ai.settings.max_mib = none) :
    ∀ (fuel depth : ℕ), ai.settings.max_depth + 1 - depth = fuel →
      depth ≤ ai.settings.max_depth →
      ∀ (root : Node T A) (ctx : C) (count : ℕ), root.children = [] →
        (root.max = none ∨
          root.max = some (ai.utility_with_settings root.data depth ctx)) →
        (fullGo ai fuel root depth ctx count).1.max =
          some (bruteMax ai fuel root.data ctx depth) := by
  have hf := execTotal_failKeepsCtx ai he
  intro fuel
  induction fuel with
  | zero =>
    intro depth hfd hdep
    omega
  | succ fuel ih =>
    intro depth hfd hdep root ctx count hchil hfresh
    rw [fullGo_succ, sub_breadth_spec ai hu hf]
    simp only [initNode_data, initNode_max_fresh ai root depth ctx hfresh]
    by_cases hd : ai.settings.max_depth ≤ depth
    · rw [if_pos hd]
      have hfd0 : fuel = 0 := by omega
      subst hfd0
      rw [foldMaxKids_bruteFold ai he root.data depth ctx]
      rw [bruteFold_congr ai (fun d c => ai.utility_with_settings d (depth + 1) c)
        (fun d c => bruteMax ai 0 d c (depth + 1)) (fun d c => rfl) root.data ctx]
      rfl
    · rw [if_neg hd]
      rw [memory_exceeded_of_no_limit ai hmm]
      simp only [Bool.false_eq_true, if_false, Node.max_mk, Node.data_mk,
        Node.children_mk]
      have hgo : ∀ (a : A) (ch : Node T A) (c₁ : C) (n : ℕ),
          ai.execute root.data a ctx = (some ch.data, c₁) →
          ch.children = [] →
          ch.max = some (ai.utility_with_settings ch.data (depth + 1) c₁) →
          (fullGo ai fuel ch (depth + 1) c₁ n).1.max =
            some (bruteMax ai fuel ch.data c₁ (depth + 1)) ∧
          (fullGo ai fuel ch (depth + 1) c₁ n).2.1 = c₁ ∧
          (fullGo ai fuel ch (depth + 1) c₁ n).1.data = ch.data := by
        intro a ch c₁ n hx hch hmax
        exact ⟨ih (depth + 1) (by omega) (by omega) ch c₁ n hch (Or.inr hmax),
          (fullGo_frame ai hu hf fuel ch (depth + 1) c₁ n).1,
          (fullGo_frame ai hu hf fuel ch (depth + 1) c₁ n).2⟩
      rw [fullKids_brute ai hu he
        (fun ch c n => fullGo ai fuel ch (depth + 1) c n)
        (fun d c => bruteMax ai fuel d c (depth + 1)) hgo
        (fun d c => bruteMax_ge_self ai fuel d c (depth + 1))
        (ai.actions root.data ctx)
        (ai.utility_with_settings root.data depth ctx)]
      rfl

theorem full_brute (ai : Ai T A C) (hu : UndoExact ai) (he : ExecTotal ai)
    (hmm : ai.settings.max_mib = none) (data : T) (ctx : C) (count : ℕ) :
    (ai.full (Node.root data) 0 ctx count).1.max =
      some (bruteMax ai (ai.settings.max_depth + 1) data ctx 0) := by
  rw [Ai.full]
  have h := fullGo_brute ai hu he hmm (ai.settings.max_depth + 1 - 0) 0 rfl
    (by omega) (Node.root data) ctx count rfl (Or.inl rfl)
  simpa using h

theorem lineAi_undoExact : UndoExact lineAi := by
  intro t a c d c₁ h
  simp only [lineAi, Prod.mk.injEq, Option.some_inj] at h
  obtain ⟨h1, h2⟩ := h
  simp only [lineAi]
  rw [← h2, ← h1]
  ring

theorem lineAi_execTotal : ExecTotal lineAi := by
  intro t a c
  simp [lineAi]

theorem lineAi_failKeeps : FailKeepsCtx lineAi :=
  execTotal_failKeepsCtx lineAi lineAi_execTotal

theorem pairAi_execTotal : ExecTotal pairAi := by
  intro t a c
  simp [pairAi]

theorem pairAi2_execTotal : ExecTotal pairAi2 := by
  intro t a c
  simp [pairAi2]

/-- Claim C1: for a finite failure-free action space with exact undo and no
memory ceiling, full search from a fresh root at depth 0 computes in the
root max exactly the best discounted utility found by the independent
brute-force enumeration of the action tree the algorithm expands (states
reachable by at most max_depth + 1 actions, each scored at its depth). -/
theorem claim_C1 {T A C : Type} (ai : Ai T A C) (hu : UndoExact ai)
    (he : ExecTotal ai) (hmm : ai.settings.max_mib = none) (data : T) (ctx : C)
    (count : ℕ) :
    (ai.full (Node.root data) 0 ctx count).1.max =
      some (bruteMax ai (ai.settings.max_depth + 1) data ctx 0) :=
  full_brute ai hu he hmm data ctx count

theorem claim_C1_witness :
    (lineAi.full (Node.root 0) 0 0 0).1.max =
      some (bruteMax lineAi (lineAi.settings.max_depth + 1) 0 0 0) ∧
    bruteMax lineAi (lineAi.settings.max_depth + 1) 0 0 0 = 3 :=
  ⟨claim_C1 lineAi lineAi_undoExact lineAi_execTotal rfl 0 0 0, by
    norm_num [bruteMax, bruteFold, lineAi, Ai.utility_with_settings]⟩

/-- Claim C2: after either search from a fresh root, every node of the
resulting tree satisfies the maximum-tree invariant, recomputed
independently by replaying the recorded actions: its max equals the fold of
its own discounted utility at its depth with the maxima of its surviving
children; this includes greedy search with pruning, although pruned children
were folded into the max before being discarded. -/
theorem claim_C2 {T A C : Type} (ai : Ai T A C) (hu : UndoExact ai)
    (hf : FailKeepsCtx ai) (hgl : ai.settings.greed_elim = true) (data : T)
    (ctx : C) (count : ℕ) :
    evalInv ai (ai.full (Node.root data) 0 ctx count).1 0 ctx = true ∧
    evalInv ai (ai.greedy (Node.root data) 0 ctx count).1 0 ctx = true := by
  constructor
  · rw [Ai.full]
    exact fullGo_inv ai hu hf _ (Node.root data) 0 ctx count rfl (Or.inl rfl)
  · rw [Ai.greedy]
    exact greedyGo_inv ai hu hf hgl _ (Node.root data) 0 ctx count rfl
      (Or.inl rfl)

theorem claim_C2_witness :
    evalInv lineAi (lineAi.full (Node.root 0) 0 0 0).1 0 0 = true ∧
    evalInv lineAi (lineAi.greedy (Node.root 0) 0 0 0).1 0 0 = true :=
  claim_C2 lineAi lineAi_undoExact lineAi_failKeeps rfl 0 0 0

/-- Claim C3, counterexample: the claim asserts context restoration under
the sole hypothesis that undo exactly inverts successful executes, but a
failing execute may mutate the context and the driver performs no undo for
it, so sub_breadth can return a changed context even though the undo
hypothesis holds (vacuously here, every execute failing). -/
theorem claim_C3_counterexample :
    UndoExact failAi ∧ (failAi.sub_breadth (Node.root ()) 0 0 0).2.1 ≠ 0 := by
  constructor
  · intro t a c d c₁ h
    simp [failAi] at h
  · decide

/-- Claim C3, amended: when undo exactly inverts successful executes and
failing executes leave the context unchanged, the context after any
sub_breadth, full or greedy call is the context before the call. -/
theorem claim_C3 {T A C : Type} (ai : Ai T A C) (hu : UndoExact ai)
    (hf : FailKeepsCtx ai) (root : Node T A) (depth : ℕ) (ctx : C) (count : ℕ) :
    (ai.sub_breadth root depth ctx count).2.1 = ctx ∧
    (ai.full root depth ctx count).2.1 = ctx ∧
    (ai.greedy root depth ctx count).2.1 = ctx := by
  refine ⟨?_, ?_, ?_⟩
  · rw [sub_breadth_spec ai hu hf]
  · rw [Ai.full]
    exact (fullGo_frame ai hu hf _ root depth ctx count).1
  · rw [Ai.greedy]
    exact (greedyGo_frame ai hu hf _ root depth ctx count).1

theorem claim_C3_witness :
    (lineAi.sub_breadth (Node.root 0) 0 5 0).2.1 = 5 ∧
    (lineAi.full (Node.root 0) 0 5 0).2.1 = 5 ∧
    (lineAi.greedy (Node.root 0) 0 5 0).2.1 = 5 :=
  claim_C3 lineAi lineAi_undoExact lineAi_failKeeps (Node.root 0) 0 5 0

/-- Claim C4: optimal returns the index of the first child in insertion
order whose max is at least the node max under the f64 comparison (false on
the NaN sentinel), none when no such child exists; and optimal is none iff
terminal is true iff no child max is at least the node max. -/
theorem claim_C4 {T A : Type} (n : Node T A) :
    (∀ i, n.optimal = some i →
      i < n.children.length ∧
      (∃ p, n.children[i]? = some p ∧ fge p.2.max n.max = true) ∧
      (∀ j p, j < i → n.children[j]? = some p → fge p.2.max n.max = false)) ∧
    (n.optimal = none ↔ ∀ p ∈ n.children, fge p.2.max n.max = false) ∧
    (n.terminal = true ↔ n.optimal = none) := by
  refine ⟨fun i h => optimal_some_spec n i h, optimal_none_iff n, ?_⟩
  rw [Node.terminal, Option.isNone_iff_eq_none]

theorem claim_C4_witness :
    exNode.optimal = some 1 ∧
    (1 < exNode.children.length ∧
      (∃ p, exNode.children[1]? = some p ∧ fge p.2.max exNode.max = true) ∧
      (∀ j p, j < 1 → exNode.children[j]? = some p →
        fge p.2.max exNode.max = false)) :=
  ⟨by decide, (claim_C4 exNode).1 1 (by decide)⟩

/-- Claim C5: under the callback contract (undo inverts successful
executes, failing executes leave the context unchanged), sub_breadth
discards all prior children and produces exactly one fresh leaf child per
action whose execute succeeds, in enumeration order, each carrying the
discounted utility of the mutated context at depth + 1 and no children;
failing actions are silently skipped, appending nothing and incrementing no
telemetry, while the remaining actions are still processed. -/
theorem claim_C5 {T A C : Type} (ai : Ai T A C) (hu : UndoExact ai)
    (hf : FailKeepsCtx ai) (root : Node T A) (depth : ℕ) (ctx : C) (count : ℕ) :
    ai.sub_breadth root depth ctx count =
      (Node.mk
        (foldMaxKids root.max
          (kidsOf ai root.data depth ctx (ai.actions root.data ctx)))
        root.data (kidsOf ai root.data depth ctx (ai.actions root.data ctx)),
       ctx,
       count + (if ai.settings.analysis then
         (kidsOf ai root.data depth ctx (ai.actions root.data ctx)).length
         else 0)) ∧
    KidsOk ai root.data depth ctx
      (kidsOf ai root.data depth ctx (ai.actions root.data ctx)) :=
  ⟨sub_breadth_spec ai hu hf root depth ctx count,
   kidsOk_kidsOf ai root.data depth ctx _⟩

theorem claim_C5_witness :
    (lineAi.sub_breadth dirtyNode 0 0 0).1.children.length = 2 ∧
    (lineAi.sub_breadth dirtyNode 0 0 0).2.2 = 2 := by
  have h := (claim_C5 lineAi lineAi_undoExact lineAi_failKeeps dirtyNode 0 0 0).1
  rw [h]
  constructor
  · norm_num [kidsOf, lineAi, dirtyNode, List.filterMap_cons]
  · norm_num [kidsOf, lineAi, dirtyNode, List.filterMap_cons]

/-- Claim C6: with greedy elimination on, every node of the tree left by
greedy either keeps at most one child or keeps only the unexpanded leaves of
its final breadth level; and with telemetry also on, the counter is
decremented by exactly the number of discarded children at each pruning, so
the final count exceeds the initial count by exactly the number of surviving
nodes besides the root. -/
theorem claim_C6 {T A C : Type} (ai : Ai T A C)
    (han : ai.settings.analysis = true) (hgl : ai.settings.greed_elim = true)
    (root : Node T A) (depth : ℕ) (ctx : C) (count : ℕ) :
    prunedShape (ai.greedy root depth ctx count).1 = true ∧
    (ai.greedy root depth ctx count).2.2 + 1 =
      count + nodeCount (ai.greedy root depth ctx count).1 := by
  rw [Ai.greedy]
  exact ⟨greedyGo_shape ai hgl _ root depth ctx count,
    greedyGo_count ai han hgl _ root depth ctx count⟩

theorem claim_C6_witness :
    (prunedShape (lineAi.greedy (Node.root 0) 0 0 0).1 = true ∧
      (lineAi.greedy (Node.root 0) 0 0 0).2.2 + 1 =
        0 + nodeCount (lineAi.greedy (Node.root 0) 0 0 0).1) ∧
    (lineAi.greedy (Node.root 0) 0 0 0).2.2 = 4 :=
  ⟨claim_C6 lineAi rfl rfl (Node.root 0) 0 0 0, by
    norm_num [Ai.greedy, greedyGo, Ai.sub_breadth, breadthLoop, lineAi,
      Node.root, Ai.utility_with_settings, Ai.memory_exceeded, fgt, fge,
      Node.optimal, optimalAux]⟩

/-- Claim C7, counterexample: the claim predicts b^1 + ... + b^D counted
nodes, but full search also breadth-expands the nodes at depth D, creating
and counting b^(D+1) further leaves: with b = 2 and D = 0 the code counts 2
nodes where the claim predicts 0. -/
theorem claim_C7_counterexample :
    (pairAi.full (Node.root ()) 0 () 0).2.2 = 2 ∧
    ¬((pairAi.full (Node.root ()) 0 () 0).2.2 =
      ∑ k ∈ Finset.range pairAi.settings.max_depth, 2 ^ (k + 1)) := by
  have h : (pairAi.full (Node.root ()) 0 () 0).2.2 = 2 := by
    norm_num [Ai.full, fullGo, fullKids, Ai.sub_breadth, breadthLoop, pairAi,
      Node.root, Ai.utility_with_settings, Ai.memory_exceeded, fgt]
  refine ⟨h, ?_⟩
  rw [h]
  decide

/-- Claim C7, amended: on a finite failure-free action space of constant
branching factor b, full search from depth 0 with telemetry on and no
memory ceiling counts exactly b^1 + ... + b^(max_depth + 1) nodes, one
breadth level beyond the depth bound. -/
theorem claim_C7 {T A C : Type} (ai : Ai T A C) (he : ExecTotal ai) (b : ℕ)
    (hb : ∀ t c, (ai.actions t c).length = b)
    (han : ai.settings.analysis = true) (hmm : ai.settings.max_mib = none)
    (root : Node T A) (ctx : C) (count : ℕ) :
    (ai.full root 0 ctx count).2.2 =
      count + ∑ k ∈ Finset.range (ai.settings.max_depth + 1), b ^ (k + 1) := by
  rw [← geomS_eq_sum]
  exact full_count ai he b hb han hmm root ctx count

theorem claim_C7_witness :
    (pairAi2.full (Node.root ()) 0 () 0).2.2 =
      0 + ∑ k ∈ Finset.range (pairAi2.settings.max_depth + 1), 2 ^ (k + 1) ∧
    (pairAi2.full (Node.root ()) 0 () 0).2.2 = 6 :=
  ⟨claim_C7 pairAi2 pairAi2_execTotal 2 (fun t c => by simp [pairAi2]) rfl rfl
    (Node.root ()) () 0, by
    norm_num [Ai.full, fullGo, fullKids, Ai.sub_breadth, breadthLoop, pairAi2,
      Node.root, Ai.utility_with_settings, Ai.memory_exceeded, fgt]⟩

/-- Claim C8, counterexample: the claim asserts that update returns the
chosen child index whenever an optimal child exists, but when the execute of
the chosen action fails the code returns none even though optimal returned
an index. -/
theorem claim_C8_counterexample :
    exNodeFail.optimal = some 0 ∧ (failAi.update exNodeFail 0).1 = none := by
  decide

/-- Claim C8, amended: update looks up optimal; on a terminal node it
returns none and leaves the context untouched; when an optimal child exists
it executes the chosen action against the live context with no paired undo,
returning the chosen index if the execute succeeds and none if it fails, in
both cases keeping whatever context the execute produced. -/
theorem claim_C8 {T A C : Type} (ai : Ai T A C) (n : Node T A) (ctx : C) :
    (n.optimal = none → ai.update n ctx = (none, ctx)) ∧
    (∀ i a ch, n.optimal = some i → n.children[i]? = some (a, ch) →
      (ai.update n ctx).2 = (ai.execute n.data a ctx).2 ∧
      (ai.update n ctx).1 =
        (if (ai.execute n.data a ctx).1.isSome then some i else none)) := by
  constructor
  · intro h
    rw [Ai.update, h]
  · intro i a ch hopt hget
    rw [Ai.update, hopt]
    dsimp only
    rw [hget]
    dsimp only
    rcases hx : ai.execute n.data a ctx with ⟨od, c₁⟩
    cases od with
    | some d =>
      dsimp only
      exact ⟨rfl, rfl⟩
    | none =>
      dsimp only
      exact ⟨rfl, rfl⟩

theorem claim_C8_witness :
    (lineAi.update exNodeLine 0).2 = (lineAi.execute exNodeLine.data true 0).2 ∧
    (lineAi.update exNodeLine 0).1 =
      (if (lineAi.execute exNodeLine.data true 0).1.isSome then some 0
       else none) :=
  (claim_C8 lineAi exNodeLine 0).2 0 true (Node.mk (some 1) 0 [])
    (by decide) rfl

/-- Claim C9: optimal_path terminates on every tree and equals the sequence
obtained by repeatedly applying optimal and descending into the chosen
child, stopping at the first node whose optimal is none. -/
theorem claim_C9 {T A : Type} (n : Node T A) :
    (n.optimal = none → n.optimal_path = []) ∧
    (∀ i, n.optimal = some i →
      ∃ p, n.children[i]? = some p ∧ n.optimal_path = i :: p.2.optimal_path) :=
  ⟨optimal_path_none n, fun i h => optimal_path_some n i h⟩

theorem claim_C9_witness :
    ∃ p, exNode.children[1]? = some p ∧
      exNode.optimal_path = 1 :: p.2.optimal_path :=
  (claim_C9 exNode).2 1 (by decide)

/-- Claim C10: a node whose max is the NaN sentinel, as produced by
Node.root, is terminal with optimal none whatever its children, because no
comparison against NaN holds; and sub_breadth alone never initializes the
max of such a node (the utility-greater-than test is false against NaN), so
a root expanded only by sub_breadth stays terminal even though children
with finite max exist. -/
theorem claim_C10 {T A C : Type} (ai : Ai T A C) (root : Node T A)
    (depth : ℕ) (ctx : C) (count : ℕ) (h : root.max = none) :
    root.optimal = none ∧ root.terminal = true ∧
    (ai.sub_breadth root depth ctx count).1.max = none ∧
    (ai.sub_breadth root depth ctx count).1.optimal = none ∧
    (ai.sub_breadth root depth ctx count).1.terminal = true := by
  have h1 := optimal_of_max_none h
  have h2 := sub_breadth_max_none ai root depth ctx count h
  have h3 := optimal_of_max_none h2
  refine ⟨h1, ?_, h2, h3, ?_⟩
  · rw [Node.terminal, h1]
    rfl
  · rw [Node.terminal, h3]
    rfl

theorem claim_C10_witness :
    (lineAi.sub_breadth (Node.root 0) 0 0 0).1.children.length = 2 ∧
    (lineAi.sub_breadth (Node.root 0) 0 0 0).1.terminal = true :=
  ⟨by
    norm_num [Ai.sub_breadth, breadthLoop, lineAi, Node.root,
      Ai.utility_with_settings, fgt],
   (claim_C10 lineAi (Node.root 0) 0 0 0 rfl).2.2.2.2⟩
